import Mathlib

/-!
Verification of the Advent prose ventilator (Go package `advent`).

Text is modelled as `List Char`, matching the Go implementation's byte-level
indexing on ASCII input.  Fallible operations return `Option`: `none` models
the Go pair `("", errUnterminatedMarkup)` — the single error the library
defines, always accompanied by an empty result string.

The definitions below are direct translations of the Go source
(`checkUnterminatedMarkup`, `findMarkupEnd`, `ventilateBySentence`,
`ventilateByLineLength`, `ventilateBlock`, `Ventilate`, ...).  The scanner's
index-jumping loop is translated with an explicit fuel argument (structural
recursion) so that all definitions compute by kernel reduction; fuel
`p.length + 1` always suffices because the cursor strictly advances.
-/

set_option maxRecDepth 100000

namespace Advent

abbrev Str := List Char

/-- Go `strings.Join(xs, sep)`. -/
def joinSep (sep : Str) : List Str → Str
  | [] => []
  | [x] => x
  | x :: y :: rest => x ++ sep ++ joinSep sep (y :: rest)

/-- Model of Go `unicode.IsSpace` restricted to the ASCII range. -/
def isSpace (c : Char) : Bool :=
  c == ' ' || c == '\t' || c == '\n' || c == '\x0b' || c == '\x0c' || c == '\r'

/-- Go slice `p[a:b]`. -/
def slice (p : Str) (a b : Nat) : Str := (p.take b).drop a

/-- Byte access `p[i]` (all call sites guard the bound). -/
def charAt (p : Str) (i : Nat) : Char := p.getD i ' '

/-- Go `strings.TrimSpace`. -/
def trimSpace (s : Str) : Str := ((s.dropWhile isSpace).reverse.dropWhile isSpace).reverse

/-- Go `strings.TrimSuffix(s, "\n")`. -/
def trimNl (s : Str) : Str := if s.getLast? = some '\n' then s.dropLast else s

/-- Go `strings.Split(s, "\n")`. -/
def splitNl : Str → List Str
  | [] => [[]]
  | c :: rest =>
    if c = '\n' then [] :: splitNl rest
    else
      match splitNl rest with
      | l :: ls => (c :: l) :: ls
      | [] => [[c]]

/-- Go `strings.ReplaceAll(s, "\r\n", "\n")` (leftmost, non-overlapping). -/
def replaceCRLF : Str → Str
  | [] => []
  | '\r' :: '\n' :: rest => '\n' :: replaceCRLF rest
  | c :: rest => c :: replaceCRLF rest

/-- Accumulator worker for `fields`. -/
def fieldsAux : Str → Str → List Str
  | [], acc => if acc = [] then [] else [acc.reverse]
  | c :: rest, acc =>
    if isSpace c then
      if acc = [] then fieldsAux rest [] else acc.reverse :: fieldsAux rest []
    else fieldsAux rest (c :: acc)

/-- Go `strings.Fields`: split around runs of whitespace. -/
def fields (s : Str) : List Str := fieldsAux s []

/-- Go `strings.Index(line, ". ")`. -/
def dotSpaceIdx : Str → Option Nat
  | [] => none
  | '.' :: ' ' :: _ => some 0
  | _ :: rest => (dotSpaceIdx rest).map (· + 1)

/-- Brace-depth scan: `scanLevel s level` walks `s` from nesting level `level`,
returning `none` as soon as a `}` occurs at level 0 (Go's early error return),
and the final level otherwise. -/
def scanLevel : Str → Nat → Option Nat
  | [], level => some level
  | c :: rest, level =>
    if c = '\x7b' then scanLevel rest (level + 1)
    else if c = '\x7d' then
      if level = 0 then none else scanLevel rest (level - 1)
    else scanLevel rest level

/-- Go `checkUnterminatedMarkup`: `true` means the braces of `s` balance
(no early `}` and final level 0); the Go function returns `nil` exactly then. -/
def checkUnterminatedMarkup (s : Str) : Bool := scanLevel s 0 == some 0

/-- Worker for `findMarkupEnd`: scans the suffix starting at absolute index
`i` with current nesting `level`, returning the absolute index of the `}`
that brings the level to zero. -/
def findMarkupEndGo : Str → Nat → Nat → Option Nat
  | [], _, _ => none
  | c :: rest, i, level =>
    if c = '\x7b' then findMarkupEndGo rest (i + 1) (level + 1)
    else if c = '\x7d' then
      if level = 1 then some i else findMarkupEndGo rest (i + 1) (level - 1)
    else findMarkupEndGo rest (i + 1) level

/-- Go `findMarkupEnd(s, start)`: index of the `}` matching the `{` at
`start`, or `none`. -/
def findMarkupEnd (s : Str) (start : Nat) : Option Nat :=
  findMarkupEndGo (s.drop (start + 1)) (start + 1) 1

/-- First index `≥ j` whose character is not whitespace (Go's
`for j < len(p) && unicode.IsSpace(...) { j++ }` loops). -/
def skipSpaces (p : Str) (j : Nat) : Nat := j + ((p.drop j).takeWhile isSpace).length

/-- The closing-wrapper set, Go string `"*}_)]}\"'"`. -/
def wrapperChars : Str := ['*', '\x7d', '_', ')', ']', '\x7d', '"', '\'']

def isWrapper (c : Char) : Bool := wrapperChars.contains c

/-- First index `≥ j` whose character is not a closing wrapper. -/
def skipWrappers (p : Str) (j : Nat) : Nat := j + ((p.drop j).takeWhile isWrapper).length

/-- Go `strings.LastIndexAny(s, " \n")`. -/
def lastSpaceIdx (s : Str) : Option Nat :=
  (s.reverse.findIdx? fun c => c == ' ' || c == '\n').map (fun k => s.length - 1 - k)

/-- The token running from the character after the last space/newline before
index `i` up to and including `p[i]` (the scanner's abbreviation candidate). -/
def wordAt (p : Str) (i : Nat) : Str :=
  let ws := match lastSpaceIdx (p.take i) with
    | none => 0
    | some k => k + 1
  slice p ws (i + 1)

/-- The inverted-quote guard of the sentence scanner: `!`/`?` immediately
followed by `"` and, past any whitespace, a lowercase letter. -/
def quoteGuard (p : Str) (i : Nat) : Bool :=
  (charAt p i == '!' || charAt p i == '?') &&
    decide (i + 1 < p.length) && (charAt p (i + 1) == '"') &&
    (decide (skipSpaces p (i + 2) < p.length) && (charAt p (skipSpaces p (i + 2))).isLower)

def ellipsisDots : Str := ['.', '.', '.']

/-- The default abbreviation set of the Go package. -/
def defaultAbbreviations : List Str :=
  ["Mr.".data, "Mrs.".data, "Ms.".data, "Dr.".data, "Prof.".data,
   "e.g.".data, "i.e.".data, "etc.".data, "St.".data]

/-- Go `Config`. `maxLineLength` is an `Int` like Go's `int`;
`abbreviations = none` models a `nil` map (default list substituted). -/
structure Config where
  sentenceBreak : Bool := false
  maxLineLength : Int := 0
  paragraphSpacing : Str := []
  respectMaxLineLength : Bool := false
  abbreviations : Option (List Str) := none

/-- The effective abbreviation set (`cfg.Abbreviations`, or the default). -/
def effAbbrs (cfg : Config) : List Str :=
  match cfg.abbreviations with
  | none => defaultAbbreviations
  | some a => a

/-- The sentence scanner's main loop (`ventilateBySentence`'s
`for i < len(p)`), with state `lastBreak`, `i` and the output builder `res`.
`fuel ≥ p.length - i + 1` always suffices since `i` strictly increases. -/
def ventGo (p : Str) (abbrs : List Str) : Nat → Nat → Nat → Str → Option Str
  | 0, _, _, _ => none
  | fuel + 1, lastBreak, i, res =>
    if i < p.length then
      if List.isPrefixOf ellipsisDots (p.drop i) then
        ventGo p abbrs fuel lastBreak (i + 3) res
      else if charAt p i = '\x7b' then
        match findMarkupEnd p i with
        | none => none
        | some e =>
          let j := skipSpaces p (e + 1)
          if j ≥ p.length ∨ (charAt p j).isUpper then
            ventGo p abbrs fuel j j (res ++ slice p lastBreak (e + 1) ++ ['\n'])
          else
            ventGo p abbrs fuel lastBreak (e + 1) res
      else if charAt p i = '.' ∨ charAt p i = '!' ∨ charAt p i = '?' then
        if wordAt p i ∈ abbrs then
          ventGo p abbrs fuel lastBreak (i + 1) res
        else if quoteGuard p i then
          ventGo p abbrs fuel lastBreak (i + 1) res
        else
          let j := skipWrappers p (i + 1)
          if j ≥ p.length ∨ isSpace (charAt p j) then
            let lb := skipSpaces p j
            ventGo p abbrs fuel lb lb (res ++ slice p lastBreak j ++ ['\n'])
          else
            ventGo p abbrs fuel lastBreak (i + 1) res
      else
        ventGo p abbrs fuel lastBreak (i + 1) res
    else
      some (trimNl (if lastBreak < p.length then res ++ p.drop lastBreak else res))

/-- Go `ventilateBySentence(p, cfg)`. -/
def ventilateBySentence (p : Str) (cfg : Config) : Option Str :=
  ventGo p (effAbbrs cfg) (p.length + 1) 0 0 []

/-- The greedy word-wrap loop of `ventilateByLineLength`. -/
def wrapGo (maxLen : Int) : List Str → Str → Str
  | [], cur => cur
  | w :: ws, cur =>
    if (cur.length : Int) + 1 + (w.length : Int) > maxLen then
      cur ++ '\n' :: wrapGo maxLen ws w
    else
      wrapGo maxLen ws (cur ++ ' ' :: w)

/-- Go `ventilateByLineLength(p, maxLen)` (it never fails). -/
def ventilateByLineLength (p : Str) (maxLen : Int) : Str :=
  match fields p with
  | [] => []
  | w :: ws => wrapGo maxLen ws w

/-- Go `ventilateParagraph`. -/
def ventilateParagraph (p : Str) (cfg : Config) : Option Str :=
  if cfg.sentenceBreak then ventilateBySentence p cfg
  else if cfg.respectMaxLineLength && cfg.maxLineLength > 0 then
    some (ventilateByLineLength p cfg.maxLineLength)
  else some p

def isAllDigits (s : Str) : Bool := s.all Char.isDigit

/-- Go `isNonProseBlock` (the `advent` package version, including the `---`
horizontal-rule prefix). -/
def isNonProseBlock (line : Str) : Bool :=
  if line = [] then false
  else if List.isPrefixOf ['#'] line || List.isPrefixOf ['>'] line
      || List.isPrefixOf ['-', ' '] line || List.isPrefixOf ['*', ' '] line
      || List.isPrefixOf ['-', '-', '-'] line then true
  else
    match dotSpaceIdx line with
    | some i =>
      if i > 0 then
        if line.take i = [] then false else isAllDigits (line.take i)
      else false
    | none => false

/-- The paragraph join of `ventilateBlock`: consecutive lines are joined by a
newline when the earlier line's trimmed form ends in `:`, otherwise by a
space. -/
def colonJoin : List Str → Str
  | [] => []
  | [l] => l
  | l :: l2 :: rest =>
    l ++ (if List.isSuffixOf [':'] (trimSpace l) then ['\n'] else [' ']) ++
      colonJoin (l2 :: rest)

/-- Go `ventilateBlock`. -/
def ventilateBlock (blockLines : List Str) (cfg : Config) : Option Str :=
  let firstLineTrimmed := trimSpace (blockLines.headD [])
  if isNonProseBlock firstLineTrimmed ||
      List.isPrefixOf ['`', '`', '`'] firstLineTrimmed then
    some (joinSep ['\n'] blockLines)
  else
    ventilateParagraph (colonJoin blockLines) cfg

/-- The block gathering of `Ventilate`'s main loop: blank lines separate
blocks, non-blank lines accumulate into the current buffer. -/
def gatherGo : List Str → List Str → List (List Str)
  | [], buf => if buf = [] then [] else [buf]
  | l :: rest, buf =>
    if trimSpace l = [] then
      if buf = [] then gatherGo rest [] else buf :: gatherGo rest []
    else gatherGo rest (buf ++ [l])

/-- Sequential block processing (an error in any block aborts the call). -/
def processBlocks : List (List Str) → Config → Option (List Str)
  | [], _ => some []
  | b :: bs, cfg =>
    match ventilateBlock b cfg, processBlocks bs cfg with
    | some s, some rest => some (s :: rest)
    | _, _ => none

/-- Go `Ventilate(input, cfg)`.  `none` models the Go return
`("", errUnterminatedMarkup)`. -/
def Ventilate (input : Str) (cfg : Config) : Option Str :=
  if input = [] then some []
  else if checkUnterminatedMarkup input = false then none
  else
    let hasTrailingNewline :=
      List.isSuffixOf ['\n'] input || List.isSuffixOf ['\r', '\n'] input
    match processBlocks (gatherGo (splitNl (replaceCRLF input)) []) cfg with
    | none => none
    | some processed =>
      let output := joinSep ['\n', '\n'] processed
      some (if hasTrailingNewline && !(List.isSuffixOf ['\n'] output)
            then output ++ ['\n'] else output)

/-- `balS p i` : the suffix of `p` starting at `i` is brace-balanced. -/
def balS (p : Str) (i : Nat) : Prop := scanLevel (p.drop i) 0 = some 0

/-- Characters that may end an emitted sentence piece: the sentence-ending
punctuation, the closing-wrapper set and a span-closing brace. -/
def isCloser (ch : Char) : Bool :=
  ch == '.' || ch == '!' || ch == '?' || isWrapper ch || ch == '\x7d'

/-- A legal piece end: position `c` is preceded by a closer character. -/
def endOK (p : Str) (c : Nat) : Prop := 1 ≤ c ∧ isCloser (charAt p (c - 1)) = true

/-- What can follow a cut: whitespace or end of text (a punctuation cut), or
the paragraph contains a `{` (so the cut may be a span-boundary cut). -/
def cutTag (p : Str) (c : Nat) : Prop :=
  (c = p.length ∨ isSpace (charAt p c) = true) ∨ '\x7b' ∈ p

/-- The emitted pieces, each rendered as its slice followed by the inserted
newline. -/
def flatPieces (p : Str) (L : List (Nat × Nat)) : Str :=
  (L.map (fun sc => slice p sc.1 sc.2 ++ ['\n'])).flatten

/-- `ChainF p cur lb L lbf`: starting with the scanner's cursor at `cur` and
the pending piece at `lb`, the run flushes exactly the pieces `L` and leaves
the final `lastBreak` at `lbf`.  Records, per flushed piece `(s, c)`: it
starts at the pending position, is nonempty, ends before `p.length` with a
closer character, carries the cut tag, transfers suffix balance from the
cursor to the cut, and the next pending position is `skipSpaces p c`. -/
def ChainF (p : Str) : Nat → Nat → List (Nat × Nat) → Nat → Prop
  | _, lb, [], lbf => lbf = lb
  | cur, lb, sc :: rest, lbf =>
    sc.1 = lb ∧ lb < sc.2 ∧ sc.2 ≤ p.length ∧ endOK p sc.2 ∧ cutTag p sc.2 ∧
      (balS p cur → balS p sc.2) ∧
      ChainF p (skipSpaces p sc.2) (skipSpaces p sc.2) rest lbf


/-- Blank-line interleaving of line blocks (the line structure of a
`"\n\n"`-joined block list). -/
def linesJoin : List (List Str) → List Str
  | [] => []
  | [L] => L
  | L :: L2 :: rest => L ++ [[]] ++ linesJoin (L2 :: rest)

/-- The brace subsequence of a string (the only characters the balance check
looks at). -/
def braces (s : Str) : Str := s.filter (fun c => c == '\x7b' || c == '\x7d')

/-! ### Basic list and slice utilities -/

theorem drop_add (p : Str) (a k : Nat) : p.drop (a + k) = (p.drop a).drop k := by
  rw [List.drop_drop]

theorem charAt_drop (p : Str) (a k : Nat) : charAt (p.drop a) k = charAt p (a + k) := by
  simp [charAt, List.getD_eq_getElem?_getD, List.getElem?_drop]

theorem drop_cons_charAt (p : Str) (i : Nat) (h : i < p.length) :
    p.drop i = charAt p i :: p.drop (i + 1) := by
  rw [charAt, List.getD_eq_getElem p ' ' h]
  exact List.drop_eq_getElem_cons h

theorem charAt_mem (p : Str) (i : Nat) (h : i < p.length) : charAt p i ∈ p := by
  rw [charAt, List.getD_eq_getElem _ _ h]
  exact List.getElem_mem h

theorem slice_eq_drop_take (p : Str) (a b : Nat) :
    slice p a b = (p.drop a).take (b - a) := by
  rw [slice, List.drop_take]

theorem slice_append (p : Str) (a b c : Nat) (hab : a ≤ b) (hbc : b ≤ c) :
    slice p a b ++ slice p b c = slice p a c := by
  rw [slice_eq_drop_take, slice_eq_drop_take, slice_eq_drop_take]
  have hdrop : p.drop b = (p.drop a).drop (b - a) := by
    rw [← drop_add]; congr 1; omega
  rw [hdrop]
  have : c - a = (b - a) + (c - b) := by omega
  rw [this, List.take_add]

theorem slice_to_end (p : Str) (a b : Nat) (h : p.length ≤ b) :
    slice p a b = p.drop a := by
  rw [slice, List.take_of_length_le h]

theorem slice_append_drop (p : Str) (a b : Nat) (hab : a ≤ b) :
    slice p a b ++ p.drop b = p.drop a := by
  rw [slice_eq_drop_take]
  have hdrop : p.drop b = (p.drop a).drop (b - a) := by
    rw [← drop_add]; congr 1; omega
  rw [hdrop, List.take_append_drop]

theorem slice_self (p : Str) (a : Nat) : slice p a a = [] := by
  rw [slice_eq_drop_take]; simp

theorem length_slice (p : Str) (a b : Nat) (hb : b ≤ p.length) (hab : a ≤ b) :
    (slice p a b).length = b - a := by
  rw [slice_eq_drop_take, List.length_take, List.length_drop]
  omega

theorem slice_ne_nil (p : Str) (a b : Nat) (hb : b ≤ p.length) (hab : a < b) :
    slice p a b ≠ [] := by
  intro h
  have := length_slice p a b hb (le_of_lt hab)
  rw [h] at this
  simp at this
  omega

theorem slice_single (p : Str) (b : Nat) (hb : b < p.length) :
    slice p b (b + 1) = [charAt p b] := by
  rw [slice_eq_drop_take]
  have : b + 1 - b = 1 := by omega
  rw [this, drop_cons_charAt p b hb]
  simp

theorem slice_concat (p : Str) (a b : Nat) (hab : a ≤ b) (hb : b < p.length) :
    slice p a (b + 1) = slice p a b ++ [charAt p b] := by
  rw [← slice_single p b hb, slice_append p a b (b + 1) hab (by omega)]

theorem slice_getLast (p : Str) (a b : Nat) (hab : a ≤ b) (hb : b < p.length) :
    (slice p a (b + 1)).getLast? = some (charAt p b) := by
  rw [slice_concat p a b hab hb]
  simp

/-! ### `takeWhile`-skip utilities (shared by `skipSpaces` and `skipWrappers`) -/

theorem take_len_takeWhile (l : Str) (pr : Char → Bool) :
    l.take (l.takeWhile pr).length = l.takeWhile pr := by
  have h := List.takeWhile_prefix (l := l) pr
  exact ((List.prefix_iff_eq_take.mp h)).symm

theorem drop_len_takeWhile (l : Str) (pr : Char → Bool) :
    l.drop (l.takeWhile pr).length = l.dropWhile pr := by
  have h := List.drop_left (l.takeWhile pr) (l.dropWhile pr)
  rwa [List.takeWhile_append_dropWhile] at h

theorem skipGen_ge (p : Str) (pr : Char → Bool) (j : Nat) :
    j ≤ j + ((p.drop j).takeWhile pr).length := by omega

theorem skipGen_le_length (p : Str) (pr : Char → Bool) (j : Nat) (h : j ≤ p.length) :
    j + ((p.drop j).takeWhile pr).length ≤ p.length := by
  have h1 : ((p.drop j).takeWhile pr).length ≤ (p.drop j).length :=
    (List.takeWhile_prefix pr).length_le
  rw [List.length_drop] at h1
  omega

theorem skipGen_gap (p : Str) (pr : Char → Bool) (j m : Nat) (hjm : j ≤ m)
    (hm : m < j + ((p.drop j).takeWhile pr).length) : pr (charAt p m) = true := by
  set tw := (p.drop j).takeWhile pr with htw
  have hk : m - j < tw.length := by omega
  have hdec : p.drop j = tw ++ (p.drop j).dropWhile pr := by
    rw [htw]; exact (List.takeWhile_append_dropWhile pr (p.drop j)).symm
  have hchar : charAt p m = charAt tw (m - j) := by
    have h1 : charAt p m = charAt (p.drop j) (m - j) := by
      rw [charAt_drop]; congr 1; omega
    rw [h1, hdec, charAt, charAt, List.getD_eq_getElem?_getD, List.getD_eq_getElem?_getD,
        List.getElem?_append_left hk]
  rw [hchar]
  have hmem : charAt tw (m - j) ∈ tw := charAt_mem tw (m - j) hk
  rw [htw] at hmem
  exact List.mem_takeWhile_imp hmem

theorem skipGen_le_of_not (p : Str) (pr : Char → Bool) (j m : Nat) (hjm : j ≤ m)
    (hnot : pr (charAt p m) = false) :
    j + ((p.drop j).takeWhile pr).length ≤ m := by
  by_contra h
  have := skipGen_gap p pr j m hjm (by omega)
  rw [hnot] at this
  exact Bool.false_ne_true this

theorem drop_skipGen (p : Str) (pr : Char → Bool) (j : Nat) :
    p.drop (j + ((p.drop j).takeWhile pr).length) = (p.drop j).dropWhile pr := by
  rw [drop_add, drop_len_takeWhile]

theorem slice_skipGen (p : Str) (pr : Char → Bool) (j : Nat) :
    slice p j (j + ((p.drop j).takeWhile pr).length) = (p.drop j).takeWhile pr := by
  rw [slice_eq_drop_take]
  have : j + ((p.drop j).takeWhile pr).length - j = ((p.drop j).takeWhile pr).length := by omega
  rw [this, take_len_takeWhile]

theorem skipSpaces_ge (p : Str) (j : Nat) : j ≤ skipSpaces p j := skipGen_ge p isSpace j

theorem skipSpaces_le_length (p : Str) (j : Nat) (h : j ≤ p.length) :
    skipSpaces p j ≤ p.length := skipGen_le_length p isSpace j h

theorem skipSpaces_gap (p : Str) (j m : Nat) (hjm : j ≤ m) (hm : m < skipSpaces p j) :
    isSpace (charAt p m) = true := skipGen_gap p isSpace j m hjm hm

theorem skipSpaces_le_of_not (p : Str) (j m : Nat) (hjm : j ≤ m)
    (hnot : isSpace (charAt p m) = false) : skipSpaces p j ≤ m :=
  skipGen_le_of_not p isSpace j m hjm hnot

theorem skipWrappers_ge (p : Str) (j : Nat) : j ≤ skipWrappers p j := skipGen_ge p isWrapper j

theorem skipWrappers_le_length (p : Str) (j : Nat) (h : j ≤ p.length) :
    skipWrappers p j ≤ p.length := skipGen_le_length p isWrapper j h

theorem skipWrappers_gap (p : Str) (j m : Nat) (hjm : j ≤ m) (hm : m < skipWrappers p j) :
    isWrapper (charAt p m) = true := skipGen_gap p isWrapper j m hjm hm

theorem skipWrappers_le_of_not (p : Str) (j m : Nat) (hjm : j ≤ m)
    (hnot : isWrapper (charAt p m) = false) : skipWrappers p j ≤ m :=
  skipGen_le_of_not p isWrapper j m hjm hnot

/-! ### Character class facts -/

theorem isSpace_not_brace (c : Char) (h : isSpace c = true) :
    c ≠ '\x7b' ∧ c ≠ '\x7d' := by
  rw [isSpace] at h
  constructor <;> rintro rfl <;> simp at h

theorem isWrapper_not_open (c : Char) (h : isWrapper c = true) : c ≠ '\x7b' := by
  rintro rfl
  rw [isWrapper, wrapperChars] at h
  simp at h

theorem isWrapper_not_nl (c : Char) (h : isWrapper c = true) : c ≠ '\n' := by
  rintro rfl
  rw [isWrapper, wrapperChars] at h
  simp at h

/-! ### Brace-balance (`scanLevel`) facts -/



theorem scanLevel_append (a b : Str) (n : Nat) :
    scanLevel (a ++ b) n = (scanLevel a n).bind (scanLevel b) := by
  induction a generalizing n with
  | nil => simp [scanLevel]
  | cons c rest ih =>
    by_cases h1 : c = '\x7b'
    · subst h1; simp [scanLevel, ih]
    · by_cases h2 : c = '\x7d'
      · subst h2
        by_cases h3 : n = 0
        · subst h3; simp [scanLevel]
        · simp [scanLevel, h3, ih]
      · simp [scanLevel, h1, h2, ih]

theorem scanLevel_shift (s : Str) : ∀ n m d : Nat,
    scanLevel s n = some m → scanLevel s (n + d) = some (m + d) := by
  induction s with
  | nil =>
    intro n m d h
    rw [scanLevel] at h ⊢
    have hnm : n = m := Option.some_injective _ h
    rw [hnm]
  | cons c rest ih =>
    intro n m d h
    rw [scanLevel] at h ⊢
    by_cases h1 : c = '\x7b'
    · rw [if_pos h1] at h ⊢
      have hh := ih (n + 1) m d h
      have heq : n + 1 + d = n + d + 1 := by omega
      rw [← heq]
      exact hh
    · rw [if_neg h1] at h ⊢
      by_cases h2 : c = '\x7d'
      · rw [if_pos h2] at h ⊢
        by_cases h3 : n = 0
        · rw [if_pos h3] at h; exact absurd h (by simp)
        · rw [if_neg h3] at h
          have h4 : ¬(n + d = 0) := by omega
          rw [if_neg h4]
          have hh := ih (n - 1) m d h
          have heq : n - 1 + d = n + d - 1 := by omega
          rw [← heq]
          exact hh
      · rw [if_neg h2] at h ⊢
        exact ih n m d h

theorem scanLevel_nonbrace (c : Char) (s : Str) (n : Nat)
    (h1 : c ≠ '\x7b') (h2 : c ≠ '\x7d') :
    scanLevel (c :: s) n = scanLevel s n := by
  simp [scanLevel, h1, h2]

theorem scanLevel_noOpen (run rest : Str) (hrun : ∀ c ∈ run, c ≠ '\x7b')
    (h : scanLevel (run ++ rest) 0 = some 0) : scanLevel rest 0 = some 0 := by
  induction run with
  | nil => simpa using h
  | cons c tail ih =>
    by_cases h2 : c = '\x7d'
    · subst h2
      rw [List.cons_append, scanLevel] at h
      simp at h
    · rw [List.cons_append, scanLevel_nonbrace c _ 0 (hrun c (by simp)) h2] at h
      exact ih (fun x hx => hrun x (by simp [hx])) h

theorem balS_step (p : Str) (i : Nat) (hi : i < p.length)
    (h1 : charAt p i ≠ '\x7b') (h2 : charAt p i ≠ '\x7d')
    (hb : balS p i) : balS p (i + 1) := by
  rw [balS] at hb ⊢
  rw [drop_cons_charAt p i hi, scanLevel_nonbrace _ _ _ h1 h2] at hb
  exact hb

theorem balS_not_close (p : Str) (i : Nat) (hi : i < p.length) (hb : balS p i) :
    charAt p i ≠ '\x7d' := by
  intro h
  rw [balS, drop_cons_charAt p i hi, h] at hb
  rw [scanLevel] at hb
  simp at hb

theorem balS_skipGen (p : Str) (pr : Char → Bool) (j : Nat)
    (hpr : ∀ c, pr c = true → c ≠ '\x7b') (hb : balS p j) :
    balS p (j + ((p.drop j).takeWhile pr).length) := by
  rw [balS] at hb ⊢
  rw [drop_add, drop_len_takeWhile]
  apply scanLevel_noOpen ((p.drop j).takeWhile pr)
  · intro c hc
    exact hpr c (List.mem_takeWhile_imp hc)
  · rw [List.takeWhile_append_dropWhile]
    exact hb

theorem balS_skipSpaces (p : Str) (j : Nat) (hb : balS p j) : balS p (skipSpaces p j) :=
  balS_skipGen p isSpace j (fun c hc => (isSpace_not_brace c hc).1) hb

theorem balS_skipWrappers (p : Str) (j : Nat) (hb : balS p j) : balS p (skipWrappers p j) :=
  balS_skipGen p isWrapper j isWrapper_not_open hb

theorem balS_prefix_zero (p : Str) (i : Nat) (hp : scanLevel p 0 = some 0)
    (hb : balS p i) : scanLevel (p.take i) 0 = some 0 := by
  have hsplit : p.take i ++ p.drop i = p := List.take_append_drop i p
  rw [← hsplit, scanLevel_append] at hp
  cases htake : scanLevel (p.take i) 0 with
  | none => rw [htake] at hp; simp at hp
  | some d =>
    rw [htake] at hp
    simp only [Option.some_bind] at hp
    rw [balS] at hb
    have hshift := scanLevel_shift (p.drop i) 0 0 d hb
    simp only [Nat.zero_add] at hshift
    rw [hshift] at hp
    have hd : d = 0 := by
      have := Option.some_injective _ hp
      omega
    rw [hd]

/-! ### `findMarkupEnd` facts -/

theorem findMarkupEndGo_some (s : Str) : ∀ i lvl r : Nat,
    findMarkupEndGo s i lvl = some r →
    ∃ k, r = i + k ∧ k < s.length ∧ charAt s k = '\x7d' := by
  induction s with
  | nil => intro i lvl r h; rw [findMarkupEndGo] at h; exact absurd h (by simp)
  | cons c rest ih =>
    intro i lvl r h
    by_cases h1 : c = '\x7b'
    · subst h1
      rw [findMarkupEndGo] at h
      simp at h
      obtain ⟨k, hk1, hk2, hk3⟩ := ih (i + 1) (lvl + 1) r h
      exact ⟨k + 1, by omega, by simp; omega, by simpa [charAt] using hk3⟩
    · by_cases h2 : c = '\x7d'
      · subst h2
        rw [findMarkupEndGo] at h
        simp [h1] at h
        by_cases h3 : lvl = 1
        · simp [h3] at h
          exact ⟨0, by omega, by simp, by simp [charAt]⟩
        · simp [h3] at h
          obtain ⟨k, hk1, hk2, hk3⟩ := ih (i + 1) (lvl - 1) r h
          exact ⟨k + 1, by omega, by simp; omega, by simpa [charAt] using hk3⟩
      · rw [findMarkupEndGo] at h
        simp [h1, h2] at h
        obtain ⟨k, hk1, hk2, hk3⟩ := ih (i + 1) lvl r h
        exact ⟨k + 1, by omega, by simp; omega, by simpa [charAt] using hk3⟩

theorem findMarkup_of_bal (s : Str) : ∀ i lvl : Nat, 1 ≤ lvl →
    scanLevel s lvl = some 0 →
    ∃ k, k < s.length ∧ findMarkupEndGo s i lvl = some (i + k) ∧
      scanLevel (s.drop (k + 1)) 0 = some 0 := by
  induction s with
  | nil =>
    intro i lvl h1 h2
    rw [scanLevel] at h2
    have := Option.some_injective _ h2
    omega
  | cons c rest ih =>
    intro i lvl h1 h2
    by_cases hc1 : c = '\x7b'
    · rw [scanLevel, if_pos hc1] at h2
      obtain ⟨k, hk1, hk2, hk3⟩ := ih (i + 1) (lvl + 1) (by omega) h2
      refine ⟨k + 1, by simp; omega, ?_, ?_⟩
      · rw [findMarkupEndGo, if_pos hc1, hk2]
        congr 1
        omega
      · simpa using hk3
    · by_cases hc2 : c = '\x7d'
      · rw [scanLevel, if_neg hc1, if_pos hc2] at h2
        have h0 : ¬ (lvl = 0) := by omega
        rw [if_neg h0] at h2
        by_cases hl1 : lvl = 1
        · refine ⟨0, by simp, ?_, ?_⟩
          · rw [findMarkupEndGo, if_neg hc1, if_pos hc2, if_pos hl1]
            simp
          · subst hl1
            simpa using h2
        · obtain ⟨k, hk1, hk2, hk3⟩ := ih (i + 1) (lvl - 1) (by omega) h2
          refine ⟨k + 1, by simp; omega, ?_, ?_⟩
          · rw [findMarkupEndGo, if_neg hc1, if_pos hc2, if_neg hl1, hk2]
            congr 1
            omega
          · simpa using hk3
      · rw [scanLevel, if_neg hc1, if_neg hc2] at h2
        obtain ⟨k, hk1, hk2, hk3⟩ := ih (i + 1) lvl h1 h2
        refine ⟨k + 1, by simp; omega, ?_, ?_⟩
        · rw [findMarkupEndGo, if_neg hc1, if_neg hc2, hk2]
          congr 1
          omega
        · simpa using hk3

theorem findMarkupEnd_facts (p : Str) (i e : Nat) (h : findMarkupEnd p i = some e) :
    i + 1 ≤ e ∧ e < p.length ∧ charAt p e = '\x7d' := by
  rw [findMarkupEnd] at h
  obtain ⟨k, hk1, hk2, hk3⟩ := findMarkupEndGo_some (p.drop (i + 1)) (i + 1) 1 e h
  subst hk1
  rw [List.length_drop] at hk2
  rw [charAt_drop] at hk3
  exact ⟨by omega, by omega, hk3⟩

theorem open_scan (p : Str) (i : Nat) (hi : i < p.length) (hc : charAt p i = '\x7b')
    (hb : balS p i) : scanLevel (p.drop (i + 1)) 1 = some 0 := by
  rw [balS, drop_cons_charAt p i hi, hc, scanLevel] at hb
  simpa using hb

theorem span_transfer (p : Str) (i e : Nat) (hi : i < p.length)
    (hc : charAt p i = '\x7b') (hb : balS p i) (h : findMarkupEnd p i = some e) :
    balS p (e + 1) := by
  have hb' := open_scan p i hi hc hb
  obtain ⟨k, hk1, hk2, hk3⟩ := findMarkup_of_bal (p.drop (i + 1)) (i + 1) 1 (by omega) hb'
  rw [findMarkupEnd, hk2] at h
  have he : e = i + 1 + k := (Option.some_injective _ h).symm
  rw [balS, he]
  have hdd : p.drop (i + 1 + k + 1) = (p.drop (i + 1)).drop (k + 1) := by
    rw [← drop_add]
    congr 1
    try omega
  rw [hdd]
  exact hk3

theorem ellipsisFacts (p : Str) (i : Nat)
    (h : List.isPrefixOf ellipsisDots (p.drop i) = true) :
    i + 3 ≤ p.length ∧ p.drop i = '.' :: '.' :: '.' :: p.drop (i + 3) ∧
      charAt p i = '.' ∧ charAt p (i + 1) = '.' ∧ charAt p (i + 2) = '.' := by
  rw [List.isPrefixOf_iff_prefix] at h
  obtain ⟨t, ht⟩ := h
  rw [ellipsisDots] at ht
  have hlen : i + 3 ≤ p.length := by
    have hl := congrArg List.length ht
    simp [List.length_drop] at hl
    omega
  have h0 : i < p.length := by omega
  have h1 : i + 1 < p.length := by omega
  have h2 : i + 2 < p.length := by omega
  have hd0 := drop_cons_charAt p i h0
  have hd1 := drop_cons_charAt p (i + 1) h1
  have hd2 := drop_cons_charAt p (i + 2) h2
  have hfix1 : i + 1 + 1 = i + 2 := by omega
  have hfix2 : i + 2 + 1 = i + 3 := by omega
  rw [hfix1] at hd1
  rw [hfix2] at hd2
  have hchain : p.drop i =
      charAt p i :: charAt p (i + 1) :: charAt p (i + 2) :: p.drop (i + 3) := by
    rw [hd0, hd1, hd2]
  rw [hchain] at ht
  simp only [List.cons_append, List.nil_append, List.cons.injEq] at ht
  obtain ⟨e0, e1, e2, _⟩ := ht
  refine ⟨hlen, ?_, e0.symm, e1.symm, e2.symm⟩
  rw [hchain, ← e0, ← e1, ← e2]

theorem balS_at_dots (p : Str) (i : Nat)
    (h : List.isPrefixOf ellipsisDots (p.drop i) = true) (hb : balS p i) :
    balS p (i + 3) := by
  obtain ⟨hlen, _, hc0, hc1, hc2⟩ := ellipsisFacts p i h
  have hb1 : balS p (i + 1) :=
    balS_step p i (by omega) (by rw [hc0]; decide) (by rw [hc0]; decide) hb
  have hb2 : balS p (i + 2) := by
    have := balS_step p (i + 1) (by omega) (by rw [hc1]; decide) (by rw [hc1]; decide) hb1
    simpa [show i + 1 + 1 = i + 2 by omega] using this
  have hb3 := balS_step p (i + 2) (by omega) (by rw [hc2]; decide) (by rw [hc2]; decide) hb2
  simpa [show i + 2 + 1 = i + 3 by omega] using hb3

/-! ### Step equations for the scanner loop -/

theorem ventGo_out (p : Str) (abbrs : List Str) (fuel lb i : Nat) (res : Str)
    (hlt : ¬ i < p.length) :
    ventGo p abbrs (fuel + 1) lb i res =
      some (trimNl (if lb < p.length then res ++ p.drop lb else res)) := by
  simp only [ventGo]
  rw [if_neg hlt]

theorem ventGo_dots (p : Str) (abbrs : List Str) (fuel lb i : Nat) (res : Str)
    (hlt : i < p.length) (hell : List.isPrefixOf ellipsisDots (p.drop i) = true) :
    ventGo p abbrs (fuel + 1) lb i res = ventGo p abbrs fuel lb (i + 3) res := by
  simp only [ventGo]
  rw [if_pos hlt, if_pos hell]

theorem ventGo_span_fail (p : Str) (abbrs : List Str) (fuel lb i : Nat) (res : Str)
    (hlt : i < p.length) (hell : ¬ List.isPrefixOf ellipsisDots (p.drop i) = true)
    (hbrace : charAt p i = '\x7b') (hfm : findMarkupEnd p i = none) :
    ventGo p abbrs (fuel + 1) lb i res = none := by
  simp only [ventGo]
  rw [if_pos hlt, if_neg hell, if_pos hbrace, hfm]

theorem ventGo_span_cut (p : Str) (abbrs : List Str) (fuel lb i e : Nat) (res : Str)
    (hlt : i < p.length) (hell : ¬ List.isPrefixOf ellipsisDots (p.drop i) = true)
    (hbrace : charAt p i = '\x7b') (hfm : findMarkupEnd p i = some e)
    (hcut : skipSpaces p (e + 1) ≥ p.length ∨
      (charAt p (skipSpaces p (e + 1))).isUpper = true) :
    ventGo p abbrs (fuel + 1) lb i res =
      ventGo p abbrs fuel (skipSpaces p (e + 1)) (skipSpaces p (e + 1))
        (res ++ slice p lb (e + 1) ++ ['\n']) := by
  simp only [ventGo]
  rw [if_pos hlt, if_neg hell, if_pos hbrace, hfm]
  exact if_pos hcut

theorem ventGo_span_skip (p : Str) (abbrs : List Str) (fuel lb i e : Nat) (res : Str)
    (hlt : i < p.length) (hell : ¬ List.isPrefixOf ellipsisDots (p.drop i) = true)
    (hbrace : charAt p i = '\x7b') (hfm : findMarkupEnd p i = some e)
    (hcut : ¬ (skipSpaces p (e + 1) ≥ p.length ∨
      (charAt p (skipSpaces p (e + 1))).isUpper = true)) :
    ventGo p abbrs (fuel + 1) lb i res = ventGo p abbrs fuel lb (e + 1) res := by
  simp only [ventGo]
  rw [if_pos hlt, if_neg hell, if_pos hbrace, hfm]
  exact if_neg hcut

theorem ventGo_abbrev (p : Str) (abbrs : List Str) (fuel lb i : Nat) (res : Str)
    (hlt : i < p.length) (hell : ¬ List.isPrefixOf ellipsisDots (p.drop i) = true)
    (hbrace : ¬ charAt p i = '\x7b')
    (hpunct : charAt p i = '.' ∨ charAt p i = '!' ∨ charAt p i = '?')
    (habb : wordAt p i ∈ abbrs) :
    ventGo p abbrs (fuel + 1) lb i res = ventGo p abbrs fuel lb (i + 1) res := by
  simp only [ventGo]
  rw [if_pos hlt, if_neg hell, if_neg hbrace, if_pos hpunct, if_pos habb]

theorem ventGo_quote (p : Str) (abbrs : List Str) (fuel lb i : Nat) (res : Str)
    (hlt : i < p.length) (hell : ¬ List.isPrefixOf ellipsisDots (p.drop i) = true)
    (hbrace : ¬ charAt p i = '\x7b')
    (hpunct : charAt p i = '.' ∨ charAt p i = '!' ∨ charAt p i = '?')
    (habb : ¬ wordAt p i ∈ abbrs) (hqg : quoteGuard p i = true) :
    ventGo p abbrs (fuel + 1) lb i res = ventGo p abbrs fuel lb (i + 1) res := by
  simp only [ventGo]
  rw [if_pos hlt, if_neg hell, if_neg hbrace, if_pos hpunct, if_neg habb, if_pos hqg]

theorem ventGo_cut (p : Str) (abbrs : List Str) (fuel lb i : Nat) (res : Str)
    (hlt : i < p.length) (hell : ¬ List.isPrefixOf ellipsisDots (p.drop i) = true)
    (hbrace : ¬ charAt p i = '\x7b')
    (hpunct : charAt p i = '.' ∨ charAt p i = '!' ∨ charAt p i = '?')
    (habb : ¬ wordAt p i ∈ abbrs) (hqg : ¬ quoteGuard p i = true)
    (hcut : skipWrappers p (i + 1) ≥ p.length ∨
      isSpace (charAt p (skipWrappers p (i + 1))) = true) :
    ventGo p abbrs (fuel + 1) lb i res =
      ventGo p abbrs fuel (skipSpaces p (skipWrappers p (i + 1)))
        (skipSpaces p (skipWrappers p (i + 1)))
        (res ++ slice p lb (skipWrappers p (i + 1)) ++ ['\n']) := by
  simp only [ventGo]
  rw [if_pos hlt, if_neg hell, if_neg hbrace, if_pos hpunct, if_neg habb, if_neg hqg,
    if_pos hcut]

theorem ventGo_nocut (p : Str) (abbrs : List Str) (fuel lb i : Nat) (res : Str)
    (hlt : i < p.length) (hell : ¬ List.isPrefixOf ellipsisDots (p.drop i) = true)
    (hbrace : ¬ charAt p i = '\x7b')
    (hpunct : charAt p i = '.' ∨ charAt p i = '!' ∨ charAt p i = '?')
    (habb : ¬ wordAt p i ∈ abbrs) (hqg : ¬ quoteGuard p i = true)
    (hcut : ¬ (skipWrappers p (i + 1) ≥ p.length ∨
      isSpace (charAt p (skipWrappers p (i + 1))) = true)) :
    ventGo p abbrs (fuel + 1) lb i res = ventGo p abbrs fuel lb (i + 1) res := by
  simp only [ventGo]
  rw [if_pos hlt, if_neg hell, if_neg hbrace, if_pos hpunct, if_neg habb, if_neg hqg,
    if_neg hcut]

theorem ventGo_other (p : Str) (abbrs : List Str) (fuel lb i : Nat) (res : Str)
    (hlt : i < p.length) (hell : ¬ List.isPrefixOf ellipsisDots (p.drop i) = true)
    (hbrace : ¬ charAt p i = '\x7b')
    (hpunct : ¬ (charAt p i = '.' ∨ charAt p i = '!' ∨ charAt p i = '?')) :
    ventGo p abbrs (fuel + 1) lb i res = ventGo p abbrs fuel lb (i + 1) res := by
  simp only [ventGo]
  rw [if_pos hlt, if_neg hell, if_neg hbrace, if_neg hpunct]

/-- The sentence scanner never fails on a brace-balanced suffix: totality of
`ventGo` under the balance precondition. -/
theorem ventGo_total (p : Str) (abbrs : List Str) : ∀ fuel i lastBreak res,
    p.length - i < fuel → i ≤ p.length → balS p i →
    ∃ out, ventGo p abbrs fuel lastBreak i res = some out := by
  intro fuel
  induction fuel with
  | zero =>
    intro i lb res h hi hb
    omega
  | succ fuel ih =>
    intro i lb res hfuel hi hb
    by_cases hlt : i < p.length
    · by_cases hell : List.isPrefixOf ellipsisDots (p.drop i) = true
      · rw [ventGo_dots p abbrs fuel lb i res hlt hell]
        obtain ⟨hlen, _, _, _, _⟩ := ellipsisFacts p i hell
        exact ih (i + 3) lb res (by omega) (by omega) (balS_at_dots p i hell hb)
      · by_cases hbrace : charAt p i = '\x7b'
        · have hb' := open_scan p i hlt hbrace hb
          obtain ⟨k, hk1, hk2, hk3⟩ :=
            findMarkup_of_bal (p.drop (i + 1)) (i + 1) 1 (by omega) hb'
          have hfm : findMarkupEnd p i = some (i + 1 + k) := by
            rw [findMarkupEnd]
            exact hk2
          set e := i + 1 + k with he
          have helen : e < p.length := by
            rw [List.length_drop] at hk1
            omega
          have hbe : balS p (e + 1) := span_transfer p i e hlt hbrace hb hfm
          have hjge := skipSpaces_ge p (e + 1)
          have hjle := skipSpaces_le_length p (e + 1) (by omega)
          by_cases hcut : skipSpaces p (e + 1) ≥ p.length ∨
              (charAt p (skipSpaces p (e + 1))).isUpper = true
          · rw [ventGo_span_cut p abbrs fuel lb i e res hlt hell hbrace hfm hcut]
            exact ih _ _ _ (by omega) hjle (balS_skipSpaces p (e + 1) hbe)
          · rw [ventGo_span_skip p abbrs fuel lb i e res hlt hell hbrace hfm hcut]
            exact ih (e + 1) lb res (by omega) (by omega) hbe
        · by_cases hpunct : charAt p i = '.' ∨ charAt p i = '!' ∨ charAt p i = '?'
          · have hnb2 : charAt p i ≠ '\x7d' := by
              rcases hpunct with h | h | h <;> rw [h] <;> decide
            have hb1 : balS p (i + 1) := balS_step p i hlt hbrace hnb2 hb
            by_cases habb : wordAt p i ∈ abbrs
            · rw [ventGo_abbrev p abbrs fuel lb i res hlt hell hbrace hpunct habb]
              exact ih (i + 1) lb res (by omega) (by omega) hb1
            · by_cases hqg : quoteGuard p i = true
              · rw [ventGo_quote p abbrs fuel lb i res hlt hell hbrace hpunct habb hqg]
                exact ih (i + 1) lb res (by omega) (by omega) hb1
              · have hjge := skipWrappers_ge p (i + 1)
                have hjle := skipWrappers_le_length p (i + 1) (by omega)
                have hbj : balS p (skipWrappers p (i + 1)) := balS_skipWrappers p (i + 1) hb1
                by_cases hcut : skipWrappers p (i + 1) ≥ p.length ∨
                    isSpace (charAt p (skipWrappers p (i + 1))) = true
                · rw [ventGo_cut p abbrs fuel lb i res hlt hell hbrace hpunct habb hqg hcut]
                  have hlbge := skipSpaces_ge p (skipWrappers p (i + 1))
                  have hlble := skipSpaces_le_length p (skipWrappers p (i + 1)) hjle
                  exact ih _ _ _ (by omega) hlble (balS_skipSpaces p _ hbj)
                · rw [ventGo_nocut p abbrs fuel lb i res hlt hell hbrace hpunct habb hqg hcut]
                  exact ih (i + 1) lb res (by omega) (by omega) hb1
          · rw [ventGo_other p abbrs fuel lb i res hlt hell hbrace hpunct]
            have hnb2 : charAt p i ≠ '\x7d' := balS_not_close p i hlt hb
            exact ih (i + 1) lb res (by omega) (by omega) (balS_step p i hlt hbrace hnb2 hb)
    · rw [ventGo_out p abbrs fuel lb i res hlt]
      exact ⟨_, rfl⟩

/-! ### The cut-chain characterization of the scanner's output -/











theorem flatPieces_nil (p : Str) : flatPieces p [] = [] := rfl

theorem flatPieces_cons (p : Str) (sc : Nat × Nat) (L : List (Nat × Nat)) :
    flatPieces p (sc :: L) = (slice p sc.1 sc.2 ++ ['\n']) ++ flatPieces p L := by
  simp [flatPieces]

theorem chainF_nil (p : Str) (cur lb : Nat) : ChainF p cur lb [] lb := rfl

theorem chainF_weaken (p : Str) (cur cur' lb lbf : Nat) (L : List (Nat × Nat))
    (h : balS p cur → balS p cur') (hc : ChainF p cur' lb L lbf) :
    ChainF p cur lb L lbf := by
  cases L with
  | nil => exact hc
  | cons sc rest =>
    obtain ⟨h1, h2, h3, h4, h5, h6, h7⟩ := hc
    exact ⟨h1, h2, h3, h4, h5, fun hb => h6 (h hb), h7⟩

/-- Shape of every successful scanner run: the output is the flushed pieces,
each followed by the inserted newline, then the text from the final
`lastBreak`, with one trailing newline trimmed. -/
theorem ventGo_shape (p : Str) (abbrs : List Str) : ∀ fuel i lb res out,
    lb ≤ i → i ≤ p.length →
    ventGo p abbrs fuel lb i res = some out →
    ∃ L lbf, out = trimNl (res ++ (flatPieces p L ++ p.drop lbf)) ∧
      ChainF p i lb L lbf ∧ lb ≤ lbf ∧ lbf ≤ p.length := by
  intro fuel
  induction fuel with
  | zero =>
    intro i lb res out _ _ hrun
    rw [ventGo] at hrun
    exact absurd hrun (by simp)
  | succ fuel ih =>
    intro i lb res out hlbi hi hrun
    by_cases hlt : i < p.length
    · by_cases hell : List.isPrefixOf ellipsisDots (p.drop i) = true
      · rw [ventGo_dots p abbrs fuel lb i res hlt hell] at hrun
        obtain ⟨hlen, _, _, _, _⟩ := ellipsisFacts p i hell
        obtain ⟨L, lbf, hout, hchain, hle1, hle2⟩ :=
          ih (i + 3) lb res out (by omega) (by omega) hrun
        exact ⟨L, lbf, hout,
          chainF_weaken p i (i + 3) lb lbf L (balS_at_dots p i hell) hchain, hle1, hle2⟩
      · by_cases hbrace : charAt p i = '\x7b'
        · cases hfm : findMarkupEnd p i with
          | none =>
            rw [ventGo_span_fail p abbrs fuel lb i res hlt hell hbrace hfm] at hrun
            exact absurd hrun (by simp)
          | some e =>
            obtain ⟨hge, helen, hclose⟩ := findMarkupEnd_facts p i e hfm
            have htrans : balS p i → balS p (e + 1) := fun hb =>
              span_transfer p i e hlt hbrace hb hfm
            by_cases hcut : skipSpaces p (e + 1) ≥ p.length ∨
                (charAt p (skipSpaces p (e + 1))).isUpper = true
            · rw [ventGo_span_cut p abbrs fuel lb i e res hlt hell hbrace hfm hcut] at hrun
              have hjge := skipSpaces_ge p (e + 1)
              have hjle := skipSpaces_le_length p (e + 1) (by omega)
              obtain ⟨L', lbf, hout, hchain, hle1, hle2⟩ :=
                ih (skipSpaces p (e + 1)) (skipSpaces p (e + 1))
                  (res ++ slice p lb (e + 1) ++ ['\n']) out (le_refl _) hjle hrun
              refine ⟨(lb, e + 1) :: L', lbf, ?_, ?_, by omega, hle2⟩
              · rw [hout]
                congr 1
                rw [flatPieces_cons]
                simp [List.append_assoc]
              · refine ⟨rfl, by omega, by omega, ⟨by omega, ?_⟩, ?_, htrans, hchain⟩
                · have : e + 1 - 1 = e := by omega
                  rw [this, hclose]
                  decide
                · exact Or.inr (hbrace ▸ charAt_mem p i hlt)
            · rw [ventGo_span_skip p abbrs fuel lb i e res hlt hell hbrace hfm hcut] at hrun
              obtain ⟨L, lbf, hout, hchain, hle1, hle2⟩ :=
                ih (e + 1) lb res out (by omega) (by omega) hrun
              exact ⟨L, lbf, hout,
                chainF_weaken p i (e + 1) lb lbf L htrans hchain, hle1, hle2⟩
        · by_cases hpunct : charAt p i = '.' ∨ charAt p i = '!' ∨ charAt p i = '?'
          · have hnb2 : charAt p i ≠ '\x7d' := by
              rcases hpunct with h | h | h <;> rw [h] <;> decide
            have htrans1 : balS p i → balS p (i + 1) := fun hb =>
              balS_step p i hlt hbrace hnb2 hb
            by_cases habb : wordAt p i ∈ abbrs
            · rw [ventGo_abbrev p abbrs fuel lb i res hlt hell hbrace hpunct habb] at hrun
              obtain ⟨L, lbf, hout, hchain, hle1, hle2⟩ :=
                ih (i + 1) lb res out (by omega) (by omega) hrun
              exact ⟨L, lbf, hout,
                chainF_weaken p i (i + 1) lb lbf L htrans1 hchain, hle1, hle2⟩
            · by_cases hqg : quoteGuard p i = true
              · rw [ventGo_quote p abbrs fuel lb i res hlt hell hbrace hpunct habb hqg] at hrun
                obtain ⟨L, lbf, hout, hchain, hle1, hle2⟩ :=
                  ih (i + 1) lb res out (by omega) (by omega) hrun
                exact ⟨L, lbf, hout,
                  chainF_weaken p i (i + 1) lb lbf L htrans1 hchain, hle1, hle2⟩
              · have hjge := skipWrappers_ge p (i + 1)
                have hjle := skipWrappers_le_length p (i + 1) (by omega)
                by_cases hcut : skipWrappers p (i + 1) ≥ p.length ∨
                    isSpace (charAt p (skipWrappers p (i + 1))) = true
                · rw [ventGo_cut p abbrs fuel lb i res hlt hell hbrace hpunct habb hqg
                    hcut] at hrun
                  have hlbge := skipSpaces_ge p (skipWrappers p (i + 1))
                  have hlble := skipSpaces_le_length p (skipWrappers p (i + 1)) hjle
                  obtain ⟨L', lbf, hout, hchain, hle1, hle2⟩ :=
                    ih (skipSpaces p (skipWrappers p (i + 1)))
                      (skipSpaces p (skipWrappers p (i + 1)))
                      (res ++ slice p lb (skipWrappers p (i + 1)) ++ ['\n']) out
                      (le_refl _) hlble hrun
                  refine ⟨(lb, skipWrappers p (i + 1)) :: L', lbf, ?_, ?_, by omega, hle2⟩
                  · rw [hout]
                    congr 1
                    rw [flatPieces_cons]
                    simp [List.append_assoc]
                  · refine ⟨rfl, by omega, hjle, ⟨by omega, ?_⟩, ?_, ?_, hchain⟩
                    · by_cases hrunempty : skipWrappers p (i + 1) = i + 1
                      · rw [hrunempty]
                        have : i + 1 - 1 = i := by omega
                        rw [this]
                        rcases hpunct with h | h | h <;> rw [h] <;> decide
                      · have hw : isWrapper (charAt p (skipWrappers p (i + 1) - 1)) = true := by
                          apply skipWrappers_gap p (i + 1) _ (by omega) (by omega)
                        simp [isCloser, hw]
                    · rcases hcut with h | h
                      · exact Or.inl (Or.inl (by omega))
                      · exact Or.inl (Or.inr h)
                    · intro hb
                      exact balS_skipWrappers p (i + 1) (htrans1 hb)
                · rw [ventGo_nocut p abbrs fuel lb i res hlt hell hbrace hpunct habb hqg
                    hcut] at hrun
                  obtain ⟨L, lbf, hout, hchain, hle1, hle2⟩ :=
                    ih (i + 1) lb res out (by omega) (by omega) hrun
                  exact ⟨L, lbf, hout,
                    chainF_weaken p i (i + 1) lb lbf L htrans1 hchain, hle1, hle2⟩
          · rw [ventGo_other p abbrs fuel lb i res hlt hell hbrace hpunct] at hrun
            obtain ⟨L, lbf, hout, hchain, hle1, hle2⟩ :=
              ih (i + 1) lb res out (by omega) (by omega) hrun
            have htrans : balS p i → balS p (i + 1) := fun hb =>
              balS_step p i hlt hbrace (balS_not_close p i hlt hb) hb
            exact ⟨L, lbf, hout,
              chainF_weaken p i (i + 1) lb lbf L htrans hchain, hle1, hle2⟩
    · rw [ventGo_out p abbrs fuel lb i res hlt] at hrun
      have hout := Option.some_injective _ hrun
      refine ⟨[], lb, ?_, chainF_nil p i lb, le_refl lb, by omega⟩
      rw [← hout, flatPieces_nil]
      by_cases hlb : lb < p.length
      · rw [if_pos hlb]
        simp
      · rw [if_neg hlb]
        rw [List.drop_eq_nil_of_le (by omega)]
        simp

/-! ### Consequences of the chain characterization -/

theorem chainF_balAll (p : Str) : ∀ (L : List (Nat × Nat)) (cur lb lbf : Nat),
    ChainF p cur lb L lbf → balS p cur → ∀ sc ∈ L, balS p sc.2 := by
  intro L
  induction L with
  | nil => intro cur lb lbf _ _ sc hmem; simp at hmem
  | cons sc0 rest ih =>
    intro cur lb lbf hc hb sc hmem
    obtain ⟨h1, h2, h3, h4, h5, h6, h7⟩ := hc
    rcases List.mem_cons.mp hmem with rfl | hmem'
    · exact h6 hb
    · exact ih _ _ _ h7 (balS_skipSpaces p sc0.2 (h6 hb)) sc hmem'

theorem chainF_cover (p : Str) : ∀ (L : List (Nat × Nat)) (cur lb lbf a : Nat),
    ChainF p cur lb L lbf → lb ≤ a → a < p.length → isSpace (charAt p a) = false →
    (∃ sc ∈ L, sc.1 ≤ a ∧ a < sc.2) ∨ lbf ≤ a := by
  intro L
  induction L with
  | nil =>
    intro cur lb lbf a hc hla _ _
    right
    have : lbf = lb := hc
    omega
  | cons sc0 rest ih =>
    intro cur lb lbf a hc hla haP hnsp
    obtain ⟨h1, h2, h3, h4, h5, h6, h7⟩ := hc
    by_cases hac : a < sc0.2
    · exact Or.inl ⟨sc0, by simp, by omega, hac⟩
    · by_cases hgap : a < skipSpaces p sc0.2
      · have := skipSpaces_gap p sc0.2 a (by omega) hgap
        rw [hnsp] at this
        exact absurd this (by simp)
      · rcases ih _ _ _ a h7 (by omega) haP hnsp with ⟨sc, hmem, hh⟩ | h
        · exact Or.inl ⟨sc, by simp [hmem], hh⟩
        · exact Or.inr h

theorem chainF_last (p : Str) : ∀ (L : List (Nat × Nat)) (cur lb lbf : Nat) (sc : Nat × Nat),
    ChainF p cur lb L lbf → L.getLast? = some sc →
    sc.1 < sc.2 ∧ sc.2 ≤ p.length ∧ endOK p sc.2 := by
  intro L
  induction L with
  | nil => intro cur lb lbf sc _ hlast; simp at hlast
  | cons sc0 rest ih =>
    intro cur lb lbf sc hc hlast
    obtain ⟨h1, h2, h3, h4, h5, h6, h7⟩ := hc
    cases rest with
    | nil =>
      simp at hlast
      subst hlast
      exact ⟨by omega, h3, h4⟩
    | cons b bs =>
      rw [List.getLast?_cons_cons] at hlast
      exact ih _ _ _ sc h7 hlast

/-! ### Trim and infix helpers -/

theorem trimNl_cases (s : Str) : trimNl s = s ∨ trimNl s = s.dropLast := by
  rw [trimNl]
  by_cases h : s.getLast? = some '\n'
  · rw [if_pos h]; right; rfl
  · rw [if_neg h]; left; rfl

theorem trimNl_eq_of_last_ne (s : Str) (ch : Char) (hch : s.getLast? = some ch)
    (hne : ch ≠ '\n') : trimNl s = s := by
  rw [trimNl, if_neg]
  rw [hch]
  simp [hne]

theorem infix_of_decomp_trimNl (s u t v : Str) (hs : s = u ++ t ++ v) (hv : v ≠ []) :
    t <:+: trimNl s := by
  rcases trimNl_cases s with h | h
  · rw [h, hs]
    exact ⟨u, v, by simp⟩
  · rw [h, hs]
    have h1 : (u ++ t ++ v).dropLast = u ++ t ++ v.dropLast := by
      rw [List.append_assoc, List.dropLast_append_of_ne_nil _ (by simp [hv]),
        List.dropLast_append_of_ne_nil _ hv, List.append_assoc]
    rw [h1]
    exact ⟨u, v.dropLast, by simp⟩

theorem infix_of_decomp_end (s u t : Str) (ch : Char) (hs : s = u ++ t)
    (ht : t.getLast? = some ch) (hne : ch ≠ '\n') : t <:+: trimNl s := by
  have hlast : s.getLast? = some ch := by
    rw [hs, List.getLast?_append_of_ne_nil]
    · exact ht
    · intro hnil; rw [hnil] at ht; simp at ht
  rw [trimNl_eq_of_last_ne s ch hlast hne, hs]
  exact ⟨u, [], by simp⟩

/-! ### Depth inside a span -/

theorem findMarkup_interior (s : Str) : ∀ i lvl k : Nat, 1 ≤ lvl →
    findMarkupEndGo s i lvl = some (i + k) → ∀ m, m ≤ k →
    ∃ d, 1 ≤ d ∧ scanLevel (s.take m) lvl = some d := by
  induction s with
  | nil =>
    intro i lvl k h1 h2 m hm
    rw [findMarkupEndGo] at h2
    exact absurd h2 (by simp)
  | cons c rest ih =>
    intro i lvl k h1 h2 m hm
    cases m with
    | zero => exact ⟨lvl, h1, by rw [List.take_zero, scanLevel]⟩
    | succ m' =>
      by_cases hc1 : c = '\x7b'
      · rw [findMarkupEndGo, if_pos hc1] at h2
        obtain ⟨k', hk1, _, _⟩ := findMarkupEndGo_some rest (i + 1) (lvl + 1) (i + k) h2
        have hk : k = k' + 1 := by omega
        rw [List.take_succ_cons, scanLevel, if_pos hc1]
        have h2' : findMarkupEndGo rest (i + 1) (lvl + 1) = some ((i + 1) + k') := by
          rw [h2]; congr 1; try omega
        exact ih (i + 1) (lvl + 1) k' (by omega) h2' m' (by omega)
      · by_cases hc2 : c = '\x7d'
        · rw [findMarkupEndGo, if_neg hc1, if_pos hc2] at h2
          by_cases hl1 : lvl = 1
          · rw [if_pos hl1] at h2
            have : k = 0 := by
              have := Option.some_injective _ h2
              omega
            omega
          · rw [if_neg hl1] at h2
            obtain ⟨k', hk1, _, _⟩ := findMarkupEndGo_some rest (i + 1) (lvl - 1) (i + k) h2
            have hk : k = k' + 1 := by omega
            rw [List.take_succ_cons, scanLevel, if_neg hc1, if_pos hc2,
              if_neg (by omega : ¬ lvl = 0)]
            have h2' : findMarkupEndGo rest (i + 1) (lvl - 1) = some ((i + 1) + k') := by
              rw [h2]; congr 1; try omega
            exact ih (i + 1) (lvl - 1) k' (by omega) h2' m' (by omega)
        · rw [findMarkupEndGo, if_neg hc1, if_neg hc2] at h2
          obtain ⟨k', hk1, _, _⟩ := findMarkupEndGo_some rest (i + 1) lvl (i + k) h2
          have hk : k = k' + 1 := by omega
          rw [List.take_succ_cons, scanLevel_nonbrace c _ lvl hc1 hc2]
          have h2' : findMarkupEndGo rest (i + 1) lvl = some ((i + 1) + k') := by
            rw [h2]; congr 1; try omega
          exact ih (i + 1) lvl k' h1 h2' m' (by omega)

theorem take_append_slice (p : Str) (a c : Nat) (hac : a ≤ c) :
    p.take c = p.take a ++ slice p a c := by
  rw [slice]
  have h1 : p.take a = (p.take c).take a := by
    rw [List.take_take]
    congr 1
    omega
  rw [h1, List.take_append_drop]

theorem slice_cons (p : Str) (a c : Nat) (hac : a < c) (ha : a < p.length) :
    slice p a c = charAt p a :: slice p (a + 1) c := by
  rw [slice_eq_drop_take, slice_eq_drop_take, drop_cons_charAt p a ha]
  have : c - a = (c - (a + 1)) + 1 := by omega
  rw [this, List.take_succ_cons]

theorem span_interior_not_zero (p : Str) (a e c : Nat) (ha : a < p.length)
    (hopen : charAt p a = '\x7b') (haP : scanLevel (p.take a) 0 = some 0)
    (hfm : findMarkupEnd p a = some e) (hac : a < c) (hce : c ≤ e) :
    scanLevel (p.take c) 0 ≠ some 0 := by
  rw [findMarkupEnd] at hfm
  obtain ⟨k, hk1, hk2, _⟩ := findMarkupEndGo_some (p.drop (a + 1)) (a + 1) 1 e hfm
  have hfm' : findMarkupEndGo (p.drop (a + 1)) (a + 1) 1 = some ((a + 1) + k) := by
    rw [hfm]; congr 1; try omega
  obtain ⟨d, hd1, hd2⟩ := findMarkup_interior (p.drop (a + 1)) (a + 1) 1 k (le_refl 1)
    hfm' (c - (a + 1)) (by omega)
  rw [take_append_slice p a c (by omega), slice_cons p a c hac ha, hopen]
  intro hcontra
  rw [scanLevel_append] at hcontra
  rw [haP] at hcontra
  simp only [Option.some_bind] at hcontra
  rw [scanLevel, if_pos rfl] at hcontra
  have hslice : slice p (a + 1) c = (p.drop (a + 1)).take (c - (a + 1)) :=
    slice_eq_drop_take p (a + 1) c
  rw [hslice, hd2] at hcontra
  have := Option.some_injective _ hcontra
  omega

/-! ### Balance at `Ventilate` level -/

theorem check_iff (s : Str) :
    checkUnterminatedMarkup s = true ↔ scanLevel s 0 = some 0 := by
  rw [checkUnterminatedMarkup]
  simp

theorem check_nil : checkUnterminatedMarkup [] = true := by decide

theorem ventilateBySentence_total (p : Str) (cfg : Config)
    (hb : scanLevel p 0 = some 0) : ∃ out, ventilateBySentence p cfg = some out := by
  rw [ventilateBySentence]
  exact ventGo_total p (effAbbrs cfg) (p.length + 1) 0 0 [] (by omega) (by omega)
    (by rwa [balS, List.drop_zero])

theorem ventilateBlock_total (b : List Str) (cfg : Config)
    (hb : checkUnterminatedMarkup (colonJoin b) = true) :
    ∃ out, ventilateBlock b cfg = some out := by
  rw [ventilateBlock]
  by_cases hnp : (isNonProseBlock (trimSpace (b.headD [])) ||
      List.isPrefixOf ['`', '`', '`'] (trimSpace (b.headD []))) = true
  · rw [if_pos hnp]
    exact ⟨_, rfl⟩
  · rw [if_neg hnp, ventilateParagraph]
    by_cases hsb : cfg.sentenceBreak = true
    · rw [if_pos hsb]
      exact ventilateBySentence_total (colonJoin b) cfg ((check_iff _).mp hb)
    · rw [if_neg hsb]
      by_cases hwrap : (cfg.respectMaxLineLength && cfg.maxLineLength > 0) = true
      · rw [if_pos hwrap]
        exact ⟨_, rfl⟩
      · rw [if_neg hwrap]
        exact ⟨_, rfl⟩

theorem processBlocks_total (cfg : Config) : ∀ bs : List (List Str),
    (∀ b ∈ bs, checkUnterminatedMarkup (colonJoin b) = true) →
    ∃ outs, processBlocks bs cfg = some outs := by
  intro bs
  induction bs with
  | nil => intro _; exact ⟨[], rfl⟩
  | cons b rest ih =>
    intro h
    obtain ⟨s0, hs0⟩ := ventilateBlock_total b cfg (h b (by simp))
    obtain ⟨outs, houts⟩ := ih (fun b' hb' => h b' (by simp [hb']))
    rw [processBlocks, hs0, houts]
    exact ⟨_, rfl⟩

/-! ### Span inviolability of the sentence scanner -/

theorem flatPieces_append (p : Str) (A B : List (Nat × Nat)) :
    flatPieces p (A ++ B) = flatPieces p A ++ flatPieces p B := by
  simp [flatPieces]

/-- No inserted newline ever falls strictly inside a depth-zero span: the
whole span reappears contiguously in the sentence scanner's output. -/
theorem sentence_span_inviolable (p : Str) (cfg : Config) (a e : Nat) (out : Str)
    (hbal : scanLevel p 0 = some 0) (ha : a < p.length) (hopen : charAt p a = '\x7b')
    (haP : scanLevel (p.take a) 0 = some 0) (hfm : findMarkupEnd p a = some e)
    (hrun : ventilateBySentence p cfg = some out) :
    slice p a (e + 1) <:+: out := by
  rw [ventilateBySentence] at hrun
  obtain ⟨L, lbf, hout, hchain, hle1, hle2⟩ :=
    ventGo_shape p (effAbbrs cfg) (p.length + 1) 0 0 [] out (le_refl 0) (by omega) hrun
  obtain ⟨hge, helen, hclose⟩ := findMarkupEnd_facts p a e hfm
  simp only [List.nil_append] at hout
  have hnsp : isSpace (charAt p a) = false := by rw [hopen]; decide
  rcases chainF_cover p L 0 0 lbf a hchain (by omega) ha hnsp with
    ⟨sc, hmem, hsa, hac⟩ | htail
  · have hb0 : balS p 0 := by rwa [balS, List.drop_zero]
    have hbc : balS p sc.2 := chainF_balAll p L 0 0 lbf hchain hb0 sc hmem
    have hcP : scanLevel (p.take sc.2) 0 = some 0 := balS_prefix_zero p sc.2 hbal hbc
    have hec : e + 1 ≤ sc.2 := by
      by_contra hno
      exact span_interior_not_zero p a e sc.2 ha hopen haP hfm (by omega) (by omega) hcP
    obtain ⟨L1, L2, hsplit⟩ := List.append_of_mem hmem
    rw [hout, hsplit, flatPieces_append, flatPieces_cons]
    have hs1 : slice p sc.1 sc.2 = slice p sc.1 a ++ slice p a (e + 1) ++
        slice p (e + 1) sc.2 := by
      rw [slice_append p sc.1 a (e + 1) hsa (by omega),
        slice_append p sc.1 (e + 1) sc.2 (by omega) hec]
    apply infix_of_decomp_trimNl _ (flatPieces p L1 ++ slice p sc.1 a) _
      (slice p (e + 1) sc.2 ++ '\n' :: (flatPieces p L2 ++ p.drop lbf))
    · rw [hs1]
      simp [List.append_assoc]
    · simp
  · rw [hout]
    have hdecomp : p.drop lbf = slice p lbf a ++ (slice p a (e + 1) ++ p.drop (e + 1)) := by
      rw [slice_append_drop p a (e + 1) (by omega), slice_append_drop p lbf a htail]
    by_cases hend : e + 1 < p.length
    · apply infix_of_decomp_trimNl _ (flatPieces p L ++ slice p lbf a) _ (p.drop (e + 1))
      · rw [hdecomp]
        simp [List.append_assoc]
      · intro hnil
        have := congrArg List.length hnil
        rw [List.length_drop] at this
        simp at this
        omega
    · have hlen : e + 1 = p.length := by omega
      have hdropnil : p.drop (e + 1) = [] := List.drop_eq_nil_of_le (by omega)
      apply infix_of_decomp_end _ (flatPieces p L ++ slice p lbf a) _ (charAt p e)
      · rw [hdecomp, hdropnil]
        simp [List.append_assoc]
      · exact slice_getLast p a e (by omega) (by omega)
      · rw [hclose]
        decide

/-! ### The ellipsis guard never splits a three-dot run -/

theorem dots_prefix_at (p : Str) (k : Nat) (hk : k + 2 < p.length)
    (hd0 : charAt p k = '.') (hd1 : charAt p (k + 1) = '.')
    (hd2 : charAt p (k + 2) = '.') :
    List.isPrefixOf ellipsisDots (p.drop k) = true := by
  have hq0 := drop_cons_charAt p k (by omega)
  have hq1 := drop_cons_charAt p (k + 1) (by omega)
  have hq2 := drop_cons_charAt p (k + 2) (by omega)
  rw [show k + 1 + 1 = k + 2 by omega] at hq1
  rw [show k + 2 + 1 = k + 3 by omega] at hq2
  rw [List.isPrefixOf_iff_prefix]
  refine ⟨p.drop (k + 3), ?_⟩
  rw [hq0, hq1, hq2, hd0, hd1, hd2, ellipsisDots]
  simp

/-- Main induction for the ellipsis guard (C4): if positions `k`, `k+1`, `k+2`
hold a maximal run of three dots, the run together with its following
character survives contiguously in the scanner output. -/
theorem ellipsis_region (p : Str) (abbrs : List Str) (k : Nat)
    (hk : k + 2 < p.length)
    (hd0 : charAt p k = '.') (hd1 : charAt p (k + 1) = '.') (hd2 : charAt p (k + 2) = '.')
    (hmaxL : k = 0 ∨ charAt p (k - 1) ≠ '.')
    (hmaxR : k + 3 = p.length ∨ (charAt p (k + 3) ≠ '.' ∧ charAt p (k + 3) ≠ '\n')) :
    ∀ fuel lb i res out, lb ≤ i →
      ((lb ≤ k ∧ (i ≤ k ∨ k + 3 ≤ i)) ∨
        (∃ u v, res = u ++ slice p k (min (k + 4) p.length) ++ v ∧ v ≠ [])) →
      ventGo p abbrs fuel lb i res = some out →
      slice p k (min (k + 4) p.length) <:+: out := by
  have hdots := dots_prefix_at p k hk hd0 hd1 hd2
  have hMk : k ≤ min (k + 4) p.length := by omega
  have hMlen : min (k + 4) p.length ≤ p.length := by omega
  have hnspk : isSpace (charAt p k) = false := by rw [hd0]; decide
  have hnwrk : isWrapper (charAt p k) = false := by rw [hd0]; decide
  -- the split of a long-enough piece around the protected region
  have hTsplit : ∀ lb c, lb ≤ k → min (k + 4) p.length ≤ c →
      slice p lb c = slice p lb k ++
        (slice p k (min (k + 4) p.length) ++ slice p (min (k + 4) p.length) c) := by
    intro lb c h1 h2
    rw [slice_append p k (min (k + 4) p.length) c hMk h2,
      slice_append p lb k c h1 (by omega)]
  intro fuel
  induction fuel with
  | zero =>
    intro lb i res out _ _ hrun
    rw [ventGo] at hrun
    exact absurd hrun (by simp)
  | succ fuel ih =>
    intro lb i res out hlbi hGood hrun
    by_cases hlt : i < p.length
    · by_cases hell : List.isPrefixOf ellipsisDots (p.drop i) = true
      · -- ellipsis skip
        rw [ventGo_dots p abbrs fuel lb i res hlt hell] at hrun
        rcases hGood with ⟨hlbk, hik | hik⟩ | hG2
        · -- i ≤ k : the jump lands at ≤ k or exactly k+3
          obtain ⟨_, _, hc0, hc1, hc2⟩ := ellipsisFacts p i hell
          by_cases hik' : i = k
          · exact ih lb (i + 3) res out (by omega) (Or.inl ⟨hlbk, by omega⟩) hrun
          · have hi3 : i + 3 ≤ k := by
              by_contra hno
              have h1 : i + 2 ≤ k := by
                rcases Nat.lt_or_ge (i + 1) k with h | h
                · omega
                · -- k ≤ i + 1 with i < k forces k = i + 1, then charAt p (k-1) = '.'
                  exfalso
                  rcases hmaxL with h0 | hne
                  · omega
                  · exact hne (by rw [show k - 1 = i by omega]; exact hc0)
              -- so k = i + 2, and then charAt p (k-1) = '.' again
              rcases hmaxL with h0 | hne
              · omega
              · exact hne (by rw [show k - 1 = i + 1 by omega]; exact hc1)
            exact ih lb (i + 3) res out (by omega) (Or.inl ⟨hlbk, Or.inl hi3⟩) hrun
        · exact ih lb (i + 3) res out (by omega) (Or.inl ⟨hlbk, by omega⟩) hrun
        · exact ih lb (i + 3) res out (by omega) (Or.inr hG2) hrun
      · by_cases hbrace : charAt p i = '\x7b'
        · have hik : i ≠ k := by
            intro h
            rw [h, hd0] at hbrace
            exact absurd hbrace (by decide)
          cases hfm : findMarkupEnd p i with
          | none =>
            rw [ventGo_span_fail p abbrs fuel lb i res hlt hell hbrace hfm] at hrun
            exact absurd hrun (by simp)
          | some e =>
            obtain ⟨hge, helen, hclose⟩ := findMarkupEnd_facts p i e hfm
            have heK : ¬ (k ≤ e ∧ e ≤ k + 2) := by
              rintro ⟨h1, h2⟩
              have : charAt p e = '.' := by
                rcases Nat.lt_or_ge e (k + 1) with h | h
                · rw [show e = k by omega]; exact hd0
                · rcases Nat.lt_or_ge e (k + 2) with h' | h'
                  · rw [show e = k + 1 by omega]; exact hd1
                  · rw [show e = k + 2 by omega]; exact hd2
              rw [hclose] at this
              exact absurd this (by decide)
            have heSplit : e < k ∨ k + 3 ≤ e := by
              rcases Nat.lt_or_ge e k with h | h
              · exact Or.inl h
              · right
                by_contra hno
                exact heK ⟨h, by omega⟩
            by_cases hcut : skipSpaces p (e + 1) ≥ p.length ∨
                (charAt p (skipSpaces p (e + 1))).isUpper = true
            · rw [ventGo_span_cut p abbrs fuel lb i e res hlt hell hbrace hfm hcut] at hrun
              rcases hGood with ⟨hlbk, hik' | hik'⟩ | hG2
              · -- i ≤ k, hence i < k
                rcases heSplit with heL | heR'
                · -- e + 1 ≤ k : flushed piece stays left of the run
                  have hj : skipSpaces p (e + 1) ≤ k :=
                    skipSpaces_le_of_not p (e + 1) k (by omega) hnspk
                  exact ih _ _ _ out (le_refl _) (Or.inl ⟨hj, Or.inl hj⟩) hrun
                · -- e ≥ k + 3 : the flushed piece contains the whole region
                  have hsplit := hTsplit lb (e + 1) hlbk (by omega)
                  apply ih _ _ _ out (le_refl _) (Or.inr ?_) hrun
                  refine ⟨res ++ slice p lb k,
                    slice p (min (k + 4) p.length) (e + 1) ++ ['\n'], ?_, by simp⟩
                  rw [hsplit]
                  simp [List.append_assoc]
              · -- i ≥ k + 3
                have hsplit := hTsplit lb (e + 1) hlbk (by omega)
                apply ih _ _ _ out (le_refl _) (Or.inr ?_) hrun
                refine ⟨res ++ slice p lb k,
                  slice p (min (k + 4) p.length) (e + 1) ++ ['\n'], ?_, by simp⟩
                rw [hsplit]
                simp [List.append_assoc]
              · obtain ⟨u, v, hres, hv⟩ := hG2
                apply ih _ _ _ out (le_refl _) (Or.inr ?_) hrun
                refine ⟨u, v ++ (slice p lb (e + 1) ++ ['\n']), ?_, by simp [hv]⟩
                rw [hres]
                simp [List.append_assoc]
            · rw [ventGo_span_skip p abbrs fuel lb i e res hlt hell hbrace hfm hcut] at hrun
              rcases hGood with ⟨hlbk, hik' | hik'⟩ | hG2
              · rcases heSplit with heL | heR'
                · exact ih lb (e + 1) res out (by omega) (Or.inl ⟨hlbk, by omega⟩) hrun
                · exact ih lb (e + 1) res out (by omega)
                    (Or.inl ⟨hlbk, by omega⟩) hrun
              · exact ih lb (e + 1) res out (by omega) (Or.inl ⟨hlbk, by omega⟩) hrun
              · exact ih lb (e + 1) res out (by omega) (Or.inr hG2) hrun
        · by_cases hpunct : charAt p i = '.' ∨ charAt p i = '!' ∨ charAt p i = '?'
          · have hik : i ≠ k := by
              intro h
              rw [h] at hell
              exact hell hdots
            by_cases habb : wordAt p i ∈ abbrs
            · rw [ventGo_abbrev p abbrs fuel lb i res hlt hell hbrace hpunct habb] at hrun
              rcases hGood with ⟨hlbk, hik' | hik'⟩ | hG2
              · exact ih lb (i + 1) res out (by omega) (Or.inl ⟨hlbk, by omega⟩) hrun
              · exact ih lb (i + 1) res out (by omega) (Or.inl ⟨hlbk, by omega⟩) hrun
              · exact ih lb (i + 1) res out (by omega) (Or.inr hG2) hrun
            · by_cases hqg : quoteGuard p i = true
              · rw [ventGo_quote p abbrs fuel lb i res hlt hell hbrace hpunct habb hqg] at hrun
                rcases hGood with ⟨hlbk, hik' | hik'⟩ | hG2
                · exact ih lb (i + 1) res out (by omega) (Or.inl ⟨hlbk, by omega⟩) hrun
                · exact ih lb (i + 1) res out (by omega) (Or.inl ⟨hlbk, by omega⟩) hrun
                · exact ih lb (i + 1) res out (by omega) (Or.inr hG2) hrun
              · by_cases hcut : skipWrappers p (i + 1) ≥ p.length ∨
                    isSpace (charAt p (skipWrappers p (i + 1))) = true
                · rw [ventGo_cut p abbrs fuel lb i res hlt hell hbrace hpunct habb hqg
                    hcut] at hrun
                  rcases hGood with ⟨hlbk, hik' | hik'⟩ | hG2
                  · -- i < k : the wrapper run stops before the dots
                    have hj : skipWrappers p (i + 1) ≤ k :=
                      skipWrappers_le_of_not p (i + 1) k (by omega) hnwrk
                    have hlb' : skipSpaces p (skipWrappers p (i + 1)) ≤ k :=
                      skipSpaces_le_of_not p _ k hj hnspk
                    exact ih _ _ _ out (le_refl _) (Or.inl ⟨hlb', Or.inl hlb'⟩) hrun
                  · -- i ≥ k + 3 : the flushed piece contains the whole region
                    have hjge := skipWrappers_ge p (i + 1)
                    have hsplit := hTsplit lb (skipWrappers p (i + 1)) hlbk (by omega)
                    apply ih _ _ _ out (le_refl _) (Or.inr ?_) hrun
                    refine ⟨res ++ slice p lb k,
                      slice p (min (k + 4) p.length) (skipWrappers p (i + 1)) ++ ['\n'],
                      ?_, by simp⟩
                    rw [hsplit]
                    simp [List.append_assoc]
                  · obtain ⟨u, v, hres, hv⟩ := hG2
                    apply ih _ _ _ out (le_refl _) (Or.inr ?_) hrun
                    refine ⟨u, v ++ (slice p lb (skipWrappers p (i + 1)) ++ ['\n']), ?_,
                      by simp [hv]⟩
                    rw [hres]
                    simp [List.append_assoc]
                · rw [ventGo_nocut p abbrs fuel lb i res hlt hell hbrace hpunct habb hqg
                    hcut] at hrun
                  rcases hGood with ⟨hlbk, hik' | hik'⟩ | hG2
                  · exact ih lb (i + 1) res out (by omega) (Or.inl ⟨hlbk, by omega⟩) hrun
                  · exact ih lb (i + 1) res out (by omega) (Or.inl ⟨hlbk, by omega⟩) hrun
                  · exact ih lb (i + 1) res out (by omega) (Or.inr hG2) hrun
          · rw [ventGo_other p abbrs fuel lb i res hlt hell hbrace hpunct] at hrun
            have hik : i ≠ k := by
              intro h
              rw [h] at hell
              exact hell hdots
            rcases hGood with ⟨hlbk, hik' | hik'⟩ | hG2
            · exact ih lb (i + 1) res out (by omega) (Or.inl ⟨hlbk, by omega⟩) hrun
            · exact ih lb (i + 1) res out (by omega) (Or.inl ⟨hlbk, by omega⟩) hrun
            · exact ih lb (i + 1) res out (by omega) (Or.inr hG2) hrun
    · -- end of text: flush the remainder
      rw [ventGo_out p abbrs fuel lb i res hlt] at hrun
      have hout := (Option.some_injective _ hrun).symm
      rcases hGood with ⟨hlbk, _⟩ | hG2
      · have hlb : lb < p.length := by omega
        rw [hout, if_pos hlb]
        have hdecomp : p.drop lb = slice p lb k ++
            (slice p k (min (k + 4) p.length) ++ p.drop (min (k + 4) p.length)) := by
          rw [slice_append_drop p k (min (k + 4) p.length) hMk, slice_append_drop p lb k hlbk]
        by_cases hM : min (k + 4) p.length < p.length
        · apply infix_of_decomp_trimNl _ (res ++ slice p lb k) _
            (p.drop (min (k + 4) p.length))
          · rw [hdecomp]
            simp [List.append_assoc]
          · intro hnil
            have := congrArg List.length hnil
            rw [List.length_drop] at this
            simp at this
            omega
        · have hMeq : min (k + 4) p.length = p.length := by omega
          have hdropnil : p.drop (min (k + 4) p.length) = [] :=
            List.drop_eq_nil_of_le (by omega)
          have hlast : (slice p k (min (k + 4) p.length)).getLast? =
              some (charAt p (p.length - 1)) := by
            rw [hMeq, show p.length = (p.length - 1) + 1 by omega]
            exact slice_getLast p k (p.length - 1) (by omega) (by omega)
          apply infix_of_decomp_end _ (res ++ slice p lb k) _ (charAt p (p.length - 1))
          · rw [hdecomp, hdropnil]
            simp [List.append_assoc]
          · exact hlast
          · -- the last protected character is a dot or the non-newline follower
            rcases Nat.lt_or_ge (p.length) (k + 4) with hsmall | hbig
            · rw [show p.length - 1 = k + 2 by omega, hd2]
              decide
            · have hl : p.length = k + 4 := by omega
              rcases hmaxR with h3 | ⟨_, h3⟩
              · omega
              · rw [show p.length - 1 = k + 3 by omega]
                exact h3
      · obtain ⟨u, v, hres, hv⟩ := hG2
        rw [hout]
        by_cases hlb : lb < p.length
        · rw [if_pos hlb]
          apply infix_of_decomp_trimNl _ u _ (v ++ p.drop lb)
          · rw [hres]
            simp [List.append_assoc]
          · simp [hv]
        · rw [if_neg hlb]
          exact infix_of_decomp_trimNl _ u _ v hres hv

/-! ### Shape of the scanner output: nonempty, no trailing newline -/

theorem isCloser_ne_nl (ch : Char) (h : isCloser ch = true) : ch ≠ '\n' := by
  rintro rfl
  exact absurd h (by decide)

theorem getLast_ne_nil {α : Type} (l : List α) (a : α) (h : l.getLast? = some a) :
    l ≠ [] := by
  rintro rfl
  simp at h

theorem drop_getLast (p : Str) (n : Nat) (hn : n < p.length) :
    (p.drop n).getLast? = p.getLast? := by
  conv_rhs => rw [← List.take_append_drop n p]
  rw [List.getLast?_append_of_ne_nil]
  intro hnil
  have := congrArg List.length hnil
  rw [List.length_drop] at this
  simp at this
  omega

theorem getLast?_of_ne_nil {α : Type} (l : List α) (h : l ≠ []) :
    ∃ a, l.getLast? = some a := by
  cases hl : l.getLast? with
  | none => exact absurd (List.getLast?_eq_none_iff.mp hl) h
  | some a => exact ⟨a, rfl⟩

/-- A successful sentence-scan of a nonempty paragraph that does not end in a
newline yields a nonempty output that does not end in a newline. -/
theorem scanner_out_facts (p : Str) (cfg : Config) (out : Str)
    (hp : p ≠ []) (hlastp : p.getLast? ≠ some '\n')
    (hrun : ventilateBySentence p cfg = some out) :
    out ≠ [] ∧ out.getLast? ≠ some '\n' := by
  rw [ventilateBySentence] at hrun
  obtain ⟨L, lbf, hout, hchain, hle1, hle2⟩ :=
    ventGo_shape p (effAbbrs cfg) (p.length + 1) 0 0 [] out (le_refl 0) (by omega) hrun
  simp only [List.nil_append] at hout
  have hplen : 0 < p.length := by
    cases p with
    | nil => exact absurd rfl hp
    | cons c r => simp
  by_cases hlbf : lbf < p.length
  · have hdropne : p.drop lbf ≠ [] := by
      intro hnil
      have := congrArg List.length hnil
      rw [List.length_drop] at this
      simp at this
      omega
    have hres0 : (flatPieces p L ++ p.drop lbf).getLast? = p.getLast? := by
      rw [List.getLast?_append_of_ne_nil _ hdropne, drop_getLast p lbf hlbf]
    obtain ⟨ch, hch⟩ := getLast?_of_ne_nil p hp
    have htrim : trimNl (flatPieces p L ++ p.drop lbf) = flatPieces p L ++ p.drop lbf := by
      apply trimNl_eq_of_last_ne _ ch
      · rw [hres0]; exact hch
      · intro hchnl; rw [hchnl] at hch; exact hlastp hch
    rw [hout, htrim]
    constructor
    · intro hnil
      rw [List.append_eq_nil] at hnil
      exact hdropne hnil.2
    · rw [hres0]
      exact hlastp
  · -- lbf = p.length : the run ended with a flushed cut
    have hdropnil : p.drop lbf = [] := List.drop_eq_nil_of_le (by omega)
    cases hL : L with
    | nil =>
      rw [hL] at hchain
      have : lbf = 0 := hchain
      omega
    | cons sc0 rest =>
      have hLne : L ≠ [] := by rw [hL]; simp
      obtain ⟨sc, hsc⟩ := getLast?_of_ne_nil L hLne
      obtain ⟨hsclt, hscle, hscend⟩ := chainF_last p L 0 0 lbf sc hchain hsc
      have hsplitL : L.dropLast ++ [sc] = L := by
        have hgl : L.getLast hLne = sc := by
          rw [List.getLast?_eq_getLast L hLne] at hsc
          exact Option.some_injective _ hsc
        rw [← hgl]
        exact List.dropLast_append_getLast hLne
      have hflat : flatPieces p L = (flatPieces p L.dropLast ++ slice p sc.1 sc.2) ++ ['\n'] := by
        conv_lhs => rw [← hsplitL]
        rw [flatPieces_append, flatPieces_cons, flatPieces_nil]
        simp [List.append_assoc]
      have hsne : slice p sc.1 sc.2 ≠ [] := slice_ne_nil p sc.1 sc.2 hscle hsclt
      have hslast : (slice p sc.1 sc.2).getLast? = some (charAt p (sc.2 - 1)) := by
        rw [show sc.2 = (sc.2 - 1) + 1 by omega]
        exact slice_getLast p sc.1 (sc.2 - 1) (by omega) (by omega)
      have hclose := hscend.2
      rw [hout, hdropnil, List.append_nil, hflat, trimNl, if_pos (by simp)]
      rw [List.dropLast_concat]
      constructor
      · intro hnil
        rw [List.append_eq_nil] at hnil
        exact hsne hnil.2
      · rw [List.getLast?_append_of_ne_nil _ hsne, hslast]
        intro hsome
        have := Option.some_injective _ hsome
        exact isCloser_ne_nl _ hclose this

/-! ### Facts about lines, blocks and joins -/

theorem line_ne_nil (l : Str) (h : trimSpace l ≠ []) : l ≠ [] := by
  rintro rfl
  exact h rfl

theorem splitNl_ne_nil (s : Str) : splitNl s ≠ [] := by
  induction s with
  | nil => simp [splitNl]
  | cons c rest ih =>
    rw [splitNl]
    by_cases hc : c = '\n'
    · rw [if_pos hc]; simp
    · rw [if_neg hc]
      cases hsp : splitNl rest with
      | nil => simp
      | cons l ls => simp

theorem splitNl_no_nl (s : Str) : ∀ l ∈ splitNl s, '\n' ∉ l := by
  induction s with
  | nil =>
    intro l hl
    rw [splitNl] at hl
    simp at hl
    simp [hl]
  | cons c rest ih =>
    intro l hl
    rw [splitNl] at hl
    by_cases hc : c = '\n'
    · rw [if_pos hc] at hl
      rcases List.mem_cons.mp hl with rfl | h
      · simp
      · exact ih l h
    · rw [if_neg hc] at hl
      cases hsp : splitNl rest with
      | nil => exact absurd hsp (splitNl_ne_nil rest)
      | cons l0 ls =>
        rw [hsp] at hl
        rcases List.mem_cons.mp hl with rfl | h
        · intro hmem
          rcases List.mem_cons.mp hmem with rfl | h'
          · exact hc rfl
          · exact ih l0 (by rw [hsp]; simp) h'
        · exact ih l (by rw [hsp]; simp [h])

theorem gatherGo_ok (Q : Str → Prop) : ∀ (ls buf : List Str),
    (∀ l ∈ ls, Q l) → (∀ l ∈ buf, trimSpace l ≠ [] ∧ Q l) →
    ∀ b ∈ gatherGo ls buf, b ≠ [] ∧ ∀ l ∈ b, trimSpace l ≠ [] ∧ Q l := by
  intro ls
  induction ls with
  | nil =>
    intro buf _ hbuf b hb
    rw [gatherGo] at hb
    by_cases hbe : buf = []
    · rw [if_pos hbe] at hb
      simp at hb
    · rw [if_neg hbe] at hb
      simp at hb
      rw [hb]
      exact ⟨hbe, hbuf⟩
  | cons l rest ih =>
    intro buf hls hbuf b hb
    rw [gatherGo] at hb
    by_cases hblank : trimSpace l = []
    · rw [if_pos hblank] at hb
      by_cases hbe : buf = []
      · rw [if_pos hbe] at hb
        exact ih [] (fun x hx => hls x (by simp [hx])) (by simp) b hb
      · rw [if_neg hbe] at hb
        rcases List.mem_cons.mp hb with rfl | h
        · exact ⟨hbe, hbuf⟩
        · exact ih [] (fun x hx => hls x (by simp [hx])) (by simp) b h
    · rw [if_neg hblank] at hb
      apply ih (buf ++ [l]) (fun x hx => hls x (by simp [hx])) _ b hb
      intro x hx
      rcases List.mem_append.mp hx with h | h
      · exact hbuf x h
      · simp at h
        rw [h]
        exact ⟨hblank, hls l (by simp)⟩

theorem joinSep_getLast (sep : Str) : ∀ (b : List Str), b ≠ [] →
    (∀ l ∈ b, l ≠ []) →
    joinSep sep b ≠ [] ∧
      ∀ lz, b.getLast? = some lz → (joinSep sep b).getLast? = lz.getLast? := by
  intro b
  induction b with
  | nil => intro h; exact absurd rfl h
  | cons l rest ih =>
    intro _ hne
    cases rest with
    | nil =>
      refine ⟨hne l (by simp), ?_⟩
      intro lz hlz
      simp at hlz
      rw [hlz, joinSep]
    | cons l2 rest2 =>
      obtain ⟨htne, hlast⟩ := ih (by simp) (fun x hx => hne x (by simp [hx]))
      rw [joinSep]
      constructor
      · simp [htne]
      · intro lz hlz
        rw [List.getLast?_cons_cons] at hlz
        rw [List.append_assoc, List.getLast?_append_of_ne_nil _ (by simp [htne]),
          List.getLast?_append_of_ne_nil _ htne]
        exact hlast lz hlz

theorem colonJoin_getLast : ∀ (b : List Str), b ≠ [] → (∀ l ∈ b, l ≠ []) →
    colonJoin b ≠ [] ∧
      ∀ lz, b.getLast? = some lz → (colonJoin b).getLast? = lz.getLast? := by
  intro b
  induction b with
  | nil => intro h; exact absurd rfl h
  | cons l rest ih =>
    intro _ hne
    cases rest with
    | nil =>
      refine ⟨hne l (by simp), ?_⟩
      intro lz hlz
      simp at hlz
      rw [hlz, colonJoin]
    | cons l2 rest2 =>
      obtain ⟨htne, hlast⟩ := ih (by simp) (fun x hx => hne x (by simp [hx]))
      rw [colonJoin]
      constructor
      · simp [htne]
      · intro lz hlz
        rw [List.getLast?_cons_cons] at hlz
        rw [List.append_assoc, List.getLast?_append_of_ne_nil _ (by simp [htne]),
          List.getLast?_append_of_ne_nil _ htne]
        exact hlast lz hlz

theorem colonJoin_mem : ∀ (b : List Str) (l : Str), l ∈ b → ∀ c ∈ l, c ∈ colonJoin b := by
  intro b
  induction b with
  | nil => intro l hl; simp at hl
  | cons l0 rest ih =>
    intro l hl c hc
    cases rest with
    | nil =>
      simp at hl
      rw [colonJoin, ← hl]
      exact hc
    | cons l2 rest2 =>
      rw [colonJoin]
      rcases List.mem_cons.mp hl with rfl | h
      · simp [hc]
      · simp [ih l h c hc]

theorem trimSpace_all_space (l : Str) (h : ∀ c ∈ l, isSpace c = true) :
    trimSpace l = [] := by
  rw [trimSpace]
  have h1 : l.dropWhile isSpace = [] := List.dropWhile_eq_nil_iff.mpr h
  rw [h1]
  simp

theorem exists_nonspace_of_trim (l : Str) (h : trimSpace l ≠ []) :
    ∃ c ∈ l, isSpace c = false := by
  by_contra hno
  push_neg at hno
  apply h
  apply trimSpace_all_space
  intro c hc
  have := hno c hc
  cases hcc : isSpace c with
  | false => exact absurd hcc this
  | true => rfl

/-! ### Fields and wrap facts -/

theorem fieldsAux_ok : ∀ (s acc : Str), (∀ c ∈ acc, isSpace c = false) →
    ∀ w ∈ fieldsAux s acc, w ≠ [] ∧ ∀ c ∈ w, isSpace c = false := by
  intro s
  induction s with
  | nil =>
    intro acc hacc w hw
    rw [fieldsAux] at hw
    by_cases hae : acc = []
    · rw [if_pos hae] at hw
      simp at hw
    · rw [if_neg hae] at hw
      simp at hw
      rw [hw]
      refine ⟨by simp [hae], ?_⟩
      intro c hc
      exact hacc c (List.mem_reverse.mp hc)
  | cons c rest ih =>
    intro acc hacc w hw
    rw [fieldsAux] at hw
    by_cases hsp : isSpace c = true
    · rw [if_pos hsp] at hw
      by_cases hae : acc = []
      · rw [if_pos hae] at hw
        exact ih [] (by simp) w hw
      · rw [if_neg hae] at hw
        rcases List.mem_cons.mp hw with rfl | h
        · exact ⟨by simp [hae], fun c2 hc2 => hacc c2 (List.mem_reverse.mp hc2)⟩
        · exact ih [] (by simp) w h
    · rw [if_neg hsp] at hw
      apply ih (c :: acc) _ w hw
      intro c2 hc2
      rcases List.mem_cons.mp hc2 with rfl | h
      · simp at hsp
        exact hsp
      · exact hacc c2 h

theorem fieldsAux_nil_all_space : ∀ (s acc : Str), fieldsAux s acc = [] →
    acc = [] ∧ ∀ c ∈ s, isSpace c = true := by
  intro s
  induction s with
  | nil =>
    intro acc h
    rw [fieldsAux] at h
    by_cases hae : acc = []
    · exact ⟨hae, by simp⟩
    · rw [if_neg hae] at h
      simp at h
  | cons c rest ih =>
    intro acc h
    rw [fieldsAux] at h
    by_cases hsp : isSpace c = true
    · rw [if_pos hsp] at h
      by_cases hae : acc = []
      · rw [if_pos hae] at h
        obtain ⟨_, hall⟩ := ih [] h
        refine ⟨hae, ?_⟩
        intro c2 hc2
        rcases List.mem_cons.mp hc2 with rfl | hm
        · exact hsp
        · exact hall c2 hm
      · rw [if_neg hae] at h
        simp at h
    · rw [if_neg hsp] at h
      obtain ⟨hca, _⟩ := ih (c :: acc) h
      simp at hca

theorem wrapGo_last_ok (maxLen : Int) : ∀ (ws : List Str) (cur : Str),
    (∃ ch, cur.getLast? = some ch ∧ isSpace ch = false) →
    (∀ w ∈ ws, ∃ ch, w.getLast? = some ch ∧ isSpace ch = false) →
    ∃ ch, (wrapGo maxLen ws cur).getLast? = some ch ∧ isSpace ch = false := by
  intro ws
  induction ws with
  | nil =>
    intro cur hcur _
    rw [wrapGo]
    exact hcur
  | cons w ws' ih =>
    intro cur hcur hws
    rw [wrapGo]
    by_cases hlen : (cur.length : Int) + 1 + (w.length : Int) > maxLen
    · rw [if_pos hlen]
      obtain ⟨ch, hch, hsp⟩ := ih w (hws w (by simp)) (fun x hx => hws x (by simp [hx]))
      have hne : wrapGo maxLen ws' w ≠ [] := getLast_ne_nil _ ch hch
      refine ⟨ch, ?_, hsp⟩
      rw [List.getLast?_append_of_ne_nil _ (by simp),
        show ('\n' :: wrapGo maxLen ws' w) = ['\n'] ++ wrapGo maxLen ws' w from rfl,
        List.getLast?_append_of_ne_nil _ hne]
      exact hch
    · rw [if_neg hlen]
      apply ih (cur ++ ' ' :: w) _ (fun x hx => hws x (by simp [hx]))
      obtain ⟨ch, hch, hsp⟩ := hws w (by simp)
      have hwne : w ≠ [] := getLast_ne_nil _ ch hch
      refine ⟨ch, ?_, hsp⟩
      rw [List.getLast?_append_of_ne_nil _ (by simp),
        show (' ' :: w) = [' '] ++ w from rfl,
        List.getLast?_append_of_ne_nil _ hwne]
      exact hch

/-! ### Per-block output facts -/

theorem ventilateBlock_ok (b : List Str) (cfg : Config) (s : Str)
    (hbne : b ≠ []) (hlines : ∀ l ∈ b, trimSpace l ≠ [] ∧ '\n' ∉ l)
    (hrun : ventilateBlock b cfg = some s) :
    s ≠ [] ∧ s.getLast? ≠ some '\n' := by
  have hlne : ∀ l ∈ b, l ≠ [] := fun l hl => line_ne_nil l (hlines l hl).1
  obtain ⟨lz, hlz⟩ := getLast?_of_ne_nil b hbne
  have hlzb : lz ∈ b := List.mem_of_mem_getLast? hlz
  obtain ⟨chz, hchz⟩ := getLast?_of_ne_nil lz (hlne lz hlzb)
  have hchzl : chz ∈ lz := List.mem_of_mem_getLast? hchz
  have hchznl : chz ≠ '\n' := fun h => (hlines lz hlzb).2 (h ▸ hchzl)
  rw [ventilateBlock] at hrun
  by_cases hnp : (isNonProseBlock (trimSpace (b.headD [])) ||
      List.isPrefixOf ['`', '`', '`'] (trimSpace (b.headD []))) = true
  · rw [if_pos hnp] at hrun
    have hs := Option.some_injective _ hrun
    obtain ⟨hjne, hjlast⟩ := joinSep_getLast ['\n'] b hbne hlne
    rw [← hs]
    refine ⟨hjne, ?_⟩
    rw [hjlast lz hlz, hchz]
    intro hcon
    exact hchznl (Option.some_injective _ hcon)
  · rw [if_neg hnp, ventilateParagraph] at hrun
    obtain ⟨hcne, hclast⟩ := colonJoin_getLast b hbne hlne
    have hplast : (colonJoin b).getLast? ≠ some '\n' := by
      rw [hclast lz hlz, hchz]
      intro hcon
      exact hchznl (Option.some_injective _ hcon)
    by_cases hsb : cfg.sentenceBreak = true
    · rw [if_pos hsb] at hrun
      exact scanner_out_facts (colonJoin b) cfg s hcne hplast hrun
    · rw [if_neg hsb] at hrun
      by_cases hwrap : (cfg.respectMaxLineLength && decide (cfg.maxLineLength > 0)) = true
      · rw [if_pos hwrap] at hrun
        have hs := Option.some_injective _ hrun
        obtain ⟨c0, hc0mem, hc0⟩ := exists_nonspace_of_trim lz (hlines lz hlzb).1
        have hc0p : c0 ∈ colonJoin b := colonJoin_mem b lz hlzb c0 hc0mem
        cases hf : fields (colonJoin b) with
        | nil =>
          rw [fields] at hf
          obtain ⟨_, hall⟩ := fieldsAux_nil_all_space (colonJoin b) [] hf
          rw [hall c0 hc0p] at hc0
          exact absurd hc0 (by simp)
        | cons w ws =>
          have hv : ventilateByLineLength (colonJoin b) cfg.maxLineLength =
              wrapGo cfg.maxLineLength ws w := by
            rw [ventilateByLineLength, hf]
          rw [hv] at hs
          have hmemf : ∀ w' ∈ fields (colonJoin b),
              ∃ ch, w'.getLast? = some ch ∧ isSpace ch = false := by
            intro w' hw'
            rw [fields] at hw'
            obtain ⟨hne, hnos⟩ := fieldsAux_ok (colonJoin b) [] (by simp) w' hw'
            obtain ⟨ch, hch⟩ := getLast?_of_ne_nil w' hne
            exact ⟨ch, hch, hnos ch (List.mem_of_mem_getLast? hch)⟩
          obtain ⟨ch, hch, hsp⟩ := wrapGo_last_ok cfg.maxLineLength ws w
            (hmemf w (by rw [hf]; simp))
            (fun x hx => hmemf x (by rw [hf]; simp [hx]))
          rw [← hs]
          refine ⟨getLast_ne_nil _ ch hch, ?_⟩
          rw [hch]
          intro hcon
          have hchnl := Option.some_injective _ hcon
          rw [hchnl] at hsp
          exact absurd hsp (by decide)
      · rw [if_neg hwrap] at hrun
        have hs := Option.some_injective _ hrun
        rw [← hs]
        exact ⟨hcne, hplast⟩

theorem processBlocks_ok (cfg : Config) : ∀ (bs : List (List Str)) (outs : List Str),
    processBlocks bs cfg = some outs →
    (∀ b ∈ bs, b ≠ [] ∧ ∀ l ∈ b, trimSpace l ≠ [] ∧ '\n' ∉ l) →
    (∀ s ∈ outs, s ≠ [] ∧ s.getLast? ≠ some '\n') ∧ (outs = [] ↔ bs = []) := by
  intro bs
  induction bs with
  | nil =>
    intro outs h _
    rw [processBlocks] at h
    have hh := Option.some_injective _ h
    rw [← hh]
    exact ⟨by simp, by simp⟩
  | cons b rest ih =>
    intro outs h hok
    rw [processBlocks] at h
    cases hvb : ventilateBlock b cfg with
    | none =>
      rw [hvb] at h
      simp at h
    | some s0 =>
      rw [hvb] at h
      cases hpb : processBlocks rest cfg with
      | none =>
        rw [hpb] at h
        simp at h
      | some outs' =>
        rw [hpb] at h
        have houts : outs = s0 :: outs' := (Option.some_injective _ h).symm
        obtain ⟨hall, _⟩ := ih outs' hpb (fun b' hb' => hok b' (by simp [hb']))
        obtain ⟨hbne, hbl⟩ := hok b (by simp)
        have hs0 := ventilateBlock_ok b cfg s0 hbne hbl hvb
        constructor
        · intro s hs
          rw [houts] at hs
          rcases List.mem_cons.mp hs with rfl | hmem
          · exact hs0
          · exact hall s hmem
        · rw [houts]
          simp

/-! ### Suffix utilities -/

theorem suffix_single_iff (c : Char) (s : Str) :
    List.isSuffixOf [c] s = true ↔ s.getLast? = some c := by
  rw [List.isSuffixOf_iff_suffix]
  constructor
  · rintro ⟨t, rfl⟩
    simp
  · intro h
    have hne : s ≠ [] := getLast_ne_nil s c h
    refine ⟨s.dropLast, ?_⟩
    have hgl : s.getLast hne = c := by
      rw [List.getLast?_eq_getLast s hne] at h
      exact Option.some_injective _ h
    rw [← hgl]
    exact List.dropLast_append_getLast hne

theorem crlf_suffix_imp (input : Str) :
    List.isSuffixOf ['\r', '\n'] input = true → List.isSuffixOf ['\n'] input = true := by
  rw [List.isSuffixOf_iff_suffix, List.isSuffixOf_iff_suffix]
  rintro ⟨t, rfl⟩
  exact ⟨t ++ ['\r'], by simp⟩

/-! ### Unfolding `Ventilate` -/

theorem Ventilate_err (input : Str) (cfg : Config)
    (hck : checkUnterminatedMarkup input = false) : Ventilate input cfg = none := by
  have hne : input ≠ [] := by
    rintro rfl
    rw [check_nil] at hck
    exact absurd hck (by simp)
  rw [Ventilate, if_neg (by simp [hne]), if_pos hck]

theorem Ventilate_blockErr (input : Str) (cfg : Config)
    (hne : input ≠ []) (hck : checkUnterminatedMarkup input = true)
    (hpb : processBlocks (gatherGo (splitNl (replaceCRLF input)) []) cfg = none) :
    Ventilate input cfg = none := by
  simp only [Ventilate]
  rw [if_neg (by simp [hne]), if_neg (by simp [hck]), hpb]

theorem Ventilate_eq (input : Str) (cfg : Config) (processed : List Str)
    (hne : input ≠ []) (hck : checkUnterminatedMarkup input = true)
    (hpb : processBlocks (gatherGo (splitNl (replaceCRLF input)) []) cfg = some processed) :
    Ventilate input cfg = some (
      if ((List.isSuffixOf ['\n'] input || List.isSuffixOf ['\r', '\n'] input) &&
          !(List.isSuffixOf ['\n'] (joinSep ['\n', '\n'] processed))) = true
      then joinSep ['\n', '\n'] processed ++ ['\n'] else joinSep ['\n', '\n'] processed) := by
  simp only [Ventilate]
  rw [if_neg (by simp [hne]), if_neg (by simp [hck]), hpb]

/-- C7: for every input on which `Ventilate` succeeds, the output ends with a
single trailing newline if and only if the original input ended with a
trailing newline. -/
theorem C7_trailing_newline (input : Str) (cfg : Config) (out : Str)
    (hrun : Ventilate input cfg = some out) :
    (out.getLast? = some '\n' ↔ input.getLast? = some '\n') ∧
      (out.getLast? = some '\n' → out.dropLast.getLast? ≠ some '\n') := by
  by_cases hne : input = []
  · subst hne
    rw [Ventilate, if_pos rfl] at hrun
    have hh := Option.some_injective _ hrun
    rw [← hh]
    constructor
    · simp
    · simp
  · cases hck : checkUnterminatedMarkup input with
    | false =>
      rw [Ventilate_err input cfg hck] at hrun
      exact absurd hrun (by simp)
    | true =>
      cases hpb : processBlocks (gatherGo (splitNl (replaceCRLF input)) []) cfg with
      | none =>
        rw [Ventilate_blockErr input cfg hne hck hpb] at hrun
        exact absurd hrun (by simp)
      | some processed =>
        rw [Ventilate_eq input cfg processed hne hck hpb] at hrun
        have hout := (Option.some_injective _ hrun).symm
        have hblocks := gatherGo_ok (fun l => '\n' ∉ l) (splitNl (replaceCRLF input)) []
          (splitNl_no_nl (replaceCRLF input)) (by simp)
        obtain ⟨hall, _⟩ := processBlocks_ok cfg _ processed hpb (fun b hb => hblocks b hb)
        have hTrail : (List.isSuffixOf ['\n'] input || List.isSuffixOf ['\r', '\n'] input) =
            List.isSuffixOf ['\n'] input := by
          cases hcr : List.isSuffixOf ['\r', '\n'] input
          · simp
          · simp [crlf_suffix_imp input hcr]
        rw [hTrail] at hout
        by_cases hpe : processed = []
        · subst hpe
          have hc0 : joinSep ['\n', '\n'] ([] : List Str) = [] := rfl
          rw [hc0] at hout
          cases ht : List.isSuffixOf ['\n'] input
          · rw [ht] at hout
            simp at hout
            rw [hout]
            have hin : ¬ input.getLast? = some '\n' := by
              intro hq
              rw [← suffix_single_iff] at hq
              rw [hq] at ht
              exact absurd ht (by simp)
            constructor
            · simp [hin]
            · simp
          · rw [ht] at hout
            simp at hout
            rw [hout]
            have hin : input.getLast? = some '\n' := (suffix_single_iff _ _).mp ht
            constructor
            · simp [hin]
            · intro _
              simp
        · obtain ⟨lz, hlz⟩ := getLast?_of_ne_nil processed hpe
          have hlzmem := List.mem_of_mem_getLast? hlz
          obtain ⟨hszne, hszl⟩ := hall lz hlzmem
          obtain ⟨hjne, hjlast⟩ :=
            joinSep_getLast ['\n', '\n'] processed hpe (fun x hx => (hall x hx).1)
          have hcore_last : (joinSep ['\n', '\n'] processed).getLast? ≠ some '\n' := by
            rw [hjlast lz hlz]
            exact hszl
          have hcore_nosuf : List.isSuffixOf ['\n'] (joinSep ['\n', '\n'] processed) = false := by
            cases hq : List.isSuffixOf ['\n'] (joinSep ['\n', '\n'] processed)
            · rfl
            · exact absurd ((suffix_single_iff _ _).mp hq) hcore_last
          rw [hcore_nosuf] at hout
          cases ht : List.isSuffixOf ['\n'] input
          · rw [ht] at hout
            simp at hout
            rw [hout]
            have hin : ¬ input.getLast? = some '\n' := by
              intro hq
              rw [← suffix_single_iff] at hq
              rw [hq] at ht
              exact absurd ht (by simp)
            constructor
            · constructor
              · intro h
                exact absurd h hcore_last
              · intro h
                exact absurd h hin
            · intro h
              exact absurd h hcore_last
          · rw [ht] at hout
            simp at hout
            rw [hout]
            have hin : input.getLast? = some '\n' := (suffix_single_iff _ _).mp ht
            constructor
            · constructor
              · intro _
                exact hin
              · intro _
                simp
            · intro _
              rw [List.dropLast_concat]
              exact hcore_last

/-! ### Word-content preservation -/

theorem fieldsAux_append_space (a b : Str) (sp : Char) (hsp : isSpace sp = true) :
    ∀ acc, fieldsAux (a ++ sp :: b) acc = fieldsAux a acc ++ fieldsAux b [] := by
  induction a with
  | nil =>
    intro acc
    rw [List.nil_append]
    rw [show fieldsAux (sp :: b) acc =
      if isSpace sp then (if acc = [] then fieldsAux b [] else acc.reverse :: fieldsAux b [])
      else fieldsAux b (sp :: acc) from rfl]
    rw [if_pos hsp]
    by_cases hae : acc = []
    · rw [if_pos hae, fieldsAux, if_pos hae, List.nil_append]
    · rw [if_neg hae, fieldsAux, if_neg hae, List.cons_append, List.nil_append]
  | cons c a' ih =>
    intro acc
    rw [List.cons_append]
    rw [show fieldsAux (c :: (a' ++ sp :: b)) acc =
      if isSpace c then (if acc = [] then fieldsAux (a' ++ sp :: b) []
        else acc.reverse :: fieldsAux (a' ++ sp :: b) [])
      else fieldsAux (a' ++ sp :: b) (c :: acc) from rfl]
    rw [show fieldsAux (c :: a') acc =
      if isSpace c then (if acc = [] then fieldsAux a' [] else acc.reverse :: fieldsAux a' [])
      else fieldsAux a' (c :: acc) from rfl]
    by_cases hc : isSpace c = true
    · rw [if_pos hc, if_pos hc]
      by_cases hae : acc = []
      · rw [if_pos hae, if_pos hae, ih]
      · rw [if_neg hae, if_neg hae, ih, List.cons_append]
    · rw [if_neg hc, if_neg hc, ih]

theorem fields_append_space (a b : Str) (sp : Char) (hsp : isSpace sp = true) :
    fields (a ++ sp :: b) = fields a ++ fields b :=
  fieldsAux_append_space a b sp hsp []

theorem fields_space_run : ∀ (run b : Str), (∀ ch ∈ run, isSpace ch = true) →
    fields (run ++ b) = fields b := by
  intro run
  induction run with
  | nil =>
    intro b _
    rw [List.nil_append]
  | cons ch run' ih =>
    intro b hall
    rw [List.cons_append, fields]
    rw [show fieldsAux (ch :: (run' ++ b)) [] =
      if isSpace ch then fieldsAux (run' ++ b) [] else fieldsAux (run' ++ b) [ch] from rfl]
    rw [if_pos (hall ch (by simp))]
    exact ih b (fun c hc => hall c (by simp [hc]))

theorem fields_append_space_run (a run b : Str) (hne : run ≠ [])
    (hall : ∀ ch ∈ run, isSpace ch = true) :
    fields (a ++ (run ++ b)) = fields a ++ fields b := by
  cases run with
  | nil => exact absurd rfl hne
  | cons sp run' =>
    rw [List.cons_append, fields_append_space a (run' ++ b) sp (hall sp (by simp))]
    rw [fields_space_run run' b (fun c hc => hall c (by simp [hc]))]

theorem concat_of_getLast (s : Str) (ch : Char) (h : s.getLast? = some ch) :
    s = s.dropLast ++ [ch] := by
  have hne : s ≠ [] := getLast_ne_nil s ch h
  obtain ⟨a, ha⟩ := getLast?_of_ne_nil s hne
  rw [ha] at h
  have hch : a = ch := Option.some_injective _ h
  rw [← hch]
  have := List.dropLast_append_getLast? a ha
  exact this.symm

theorem fields_trimNl (s : Str) : fields (trimNl s) = fields s := by
  rw [trimNl]
  by_cases hlast : s.getLast? = some '\n'
  · rw [if_pos hlast]
    conv_rhs => rw [concat_of_getLast s '\n' hlast]
    rw [fields_append_space s.dropLast [] '\n' (by decide)]
    rw [show fields ([] : Str) = [] from rfl, List.append_nil]
  · rw [if_neg hlast]

theorem chainF_fields (p : Str) (hnb : '\x7b' ∉ p) :
    ∀ (L : List (Nat × Nat)) (cur lb lbf : Nat), ChainF p cur lb L lbf →
    fields (flatPieces p L ++ p.drop lbf) = fields (p.drop lb) := by
  intro L
  induction L with
  | nil =>
    intro cur lb lbf hc
    have hlbf : lbf = lb := hc
    rw [hlbf, flatPieces_nil, List.nil_append]
  | cons sc rest ih =>
    intro cur lb lbf hc
    obtain ⟨h1, h2, h3, h4, h5, h6, h7⟩ := hc
    have hIH := ih (skipSpaces p sc.2) (skipSpaces p sc.2) lbf h7
    rw [flatPieces_cons]
    simp only [List.append_assoc, List.singleton_append, List.cons_append, List.nil_append]
    rw [fields_append_space (slice p sc.1 sc.2) _ '\n' (by decide)]
    rw [hIH, h1]
    by_cases hlt : sc.2 < p.length
    · have hsp : isSpace (charAt p sc.2) = true := by
        rcases h5 with hch | hch
        · rcases hch with hc2 | hc2
          · omega
          · exact hc2
        · exact absurd hch hnb
      have hdw : p.drop (skipSpaces p sc.2) = (p.drop sc.2).dropWhile isSpace :=
        drop_skipGen p isSpace sc.2
      have hrun_ne : (p.drop sc.2).takeWhile isSpace ≠ [] := by
        rw [drop_cons_charAt p sc.2 hlt, List.takeWhile_cons_of_pos hsp]
        simp
      have hsplit : p.drop sc.2 =
          (p.drop sc.2).takeWhile isSpace ++ p.drop (skipSpaces p sc.2) := by
        rw [hdw, List.takeWhile_append_dropWhile]
      have hrunsp : ∀ ch ∈ (p.drop sc.2).takeWhile isSpace, isSpace ch = true :=
        fun ch hch => List.mem_takeWhile_imp hch
      conv_rhs => rw [← slice_append_drop p lb sc.2 (le_of_lt h2), hsplit]
      rw [fields_append_space_run (slice p lb sc.2) _ _ hrun_ne hrunsp]
    · have he : sc.2 = p.length := by omega
      have hss : skipSpaces p sc.2 = sc.2 := by
        have ha := skipSpaces_le_length p sc.2 h3
        have hb := skipSpaces_ge p sc.2
        omega
      rw [hss, he, List.drop_length]
      rw [show fields ([] : Str) = [] from rfl, List.append_nil]
      rw [slice_to_end p lb p.length (le_refl _)]

theorem ventilateBySentence_fields (p : Str) (cfg : Config) (out : Str)
    (hnb : '\x7b' ∉ p) (hrun : ventilateBySentence p cfg = some out) :
    fields out = fields p := by
  rw [ventilateBySentence] at hrun
  obtain ⟨L, lbf, hout, hchain, hlb, hlbf⟩ :=
    ventGo_shape p (effAbbrs cfg) (p.length + 1) 0 0 [] out (le_refl 0) (Nat.zero_le _) hrun
  rw [hout, List.nil_append, fields_trimNl]
  rw [chainF_fields p hnb L 0 0 lbf hchain, List.drop_zero]

theorem fieldsAux_word : ∀ (w acc : Str), (∀ c ∈ w, isSpace c = false) →
    fieldsAux w acc = if acc.reverse ++ w = [] then [] else [acc.reverse ++ w] := by
  intro w
  induction w with
  | nil =>
    intro acc _
    rw [fieldsAux, List.append_nil]
    by_cases hae : acc = []
    · rw [if_pos hae, if_pos (by rw [hae]; rfl)]
    · rw [if_neg hae, if_neg (by simp [hae])]
  | cons c w' ih =>
    intro acc hns
    rw [show fieldsAux (c :: w') acc =
      if isSpace c then (if acc = [] then fieldsAux w' [] else acc.reverse :: fieldsAux w' [])
      else fieldsAux w' (c :: acc) from rfl]
    rw [if_neg (by rw [hns c (by simp)]; exact Bool.false_ne_true)]
    rw [ih (c :: acc) (fun x hx => hns x (by simp [hx]))]
    rw [List.reverse_cons, List.append_assoc, List.singleton_append]

theorem fields_word (w : Str) (hne : w ≠ []) (hns : ∀ c ∈ w, isSpace c = false) :
    fields w = [w] := by
  rw [fields, fieldsAux_word w [] hns]
  rw [show ([] : Str).reverse = [] from rfl, List.nil_append, if_neg hne]

theorem wrapGo_fields (maxLen : Int) : ∀ (ws : List Str) (cur : Str),
    (∀ w ∈ ws, w ≠ [] ∧ ∀ c ∈ w, isSpace c = false) →
    fields (wrapGo maxLen ws cur) = fields cur ++ ws := by
  intro ws
  induction ws with
  | nil =>
    intro cur _
    rw [wrapGo, List.append_nil]
  | cons w ws' ih =>
    intro cur hws
    obtain ⟨hwne, hwns⟩ := hws w (by simp)
    have hws' : ∀ x ∈ ws', x ≠ [] ∧ ∀ c ∈ x, isSpace c = false :=
      fun x hx => hws x (by simp [hx])
    rw [wrapGo]
    by_cases hlen : (cur.length : Int) + 1 + (w.length : Int) > maxLen
    · rw [if_pos hlen]
      rw [fields_append_space cur (wrapGo maxLen ws' w) '\n' (by decide)]
      rw [ih w hws', fields_word w hwne hwns]
      simp
    · rw [if_neg hlen]
      rw [ih (cur ++ ' ' :: w) hws']
      rw [fields_append_space cur w ' ' (by decide), fields_word w hwne hwns]
      simp

theorem ventilateByLineLength_fields (p : Str) (m : Int) :
    fields (ventilateByLineLength p m) = fields p := by
  rw [ventilateByLineLength]
  cases hf : fields p with
  | nil => rfl
  | cons w ws =>
    have hok := fieldsAux_ok p [] (by simp)
    have hmem : ∀ x ∈ ws, x ≠ [] ∧ ∀ c ∈ x, isSpace c = false := by
      intro x hx
      exact hok x (by rw [show fieldsAux p [] = fields p from rfl, hf]; simp [hx])
    rw [wrapGo_fields m ws w hmem]
    have hw := hok w (by rw [show fieldsAux p [] = fields p from rfl, hf]; simp)
    rw [fields_word w hw.1 hw.2]
    rfl

/-! ### Line splitting and joining algebra -/

theorem splitNl_no_nl_eq (l : Str) (h : '\n' ∉ l) : splitNl l = [l] := by
  induction l with
  | nil => rfl
  | cons c rest ih =>
    have hc : c ≠ '\n' := fun hh => h (by rw [hh]; simp)
    have hrest : '\n' ∉ rest := fun hh => h (by simp [hh])
    rw [splitNl, if_neg hc, ih hrest]

theorem splitNl_append_nl (a b : Str) : splitNl (a ++ '\n' :: b) = splitNl a ++ splitNl b := by
  induction a with
  | nil =>
    rw [List.nil_append]
    rw [show splitNl ('\n' :: b) = [] :: splitNl b from by rw [splitNl, if_pos rfl]]
    rfl
  | cons c a' ih =>
    rw [List.cons_append]
    by_cases hc : c = '\n'
    · rw [splitNl, if_pos hc, ih]
      rw [show splitNl (c :: a') = [] :: splitNl a' from by rw [splitNl, if_pos hc]]
      rfl
    · rw [splitNl, if_neg hc, ih]
      cases heq : splitNl a' with
      | nil => exact absurd heq (splitNl_ne_nil a')
      | cons h t =>
        rw [show splitNl (c :: a') = (c :: h) :: t from by rw [splitNl, if_neg hc, heq]]
        rfl

theorem splitNl_append_nonl (a b : Str) (ha : '\n' ∉ a) (h : Str) (t : List Str)
    (hb : splitNl b = h :: t) : splitNl (a ++ b) = (a ++ h) :: t := by
  induction a with
  | nil => rw [List.nil_append, hb, List.nil_append]
  | cons c a' ih =>
    have hc : c ≠ '\n' := fun hh => ha (by rw [hh]; simp)
    have ha' : '\n' ∉ a' := fun hh => ha (by simp [hh])
    rw [List.cons_append, splitNl, if_neg hc, ih ha']
    rfl

theorem joinSep_splitNl (s : Str) : joinSep ['\n'] (splitNl s) = s := by
  induction s with
  | nil => rfl
  | cons c rest ih =>
    by_cases hc : c = '\n'
    · rw [splitNl, if_pos hc]
      cases heq : splitNl rest with
      | nil => exact absurd heq (splitNl_ne_nil rest)
      | cons h t =>
        rw [joinSep, List.nil_append, List.singleton_append, hc]
        rw [heq] at ih
        rw [ih]
    · rw [splitNl, if_neg hc]
      cases heq : splitNl rest with
      | nil => exact absurd heq (splitNl_ne_nil rest)
      | cons h t =>
        rw [heq] at ih
        cases t with
        | nil =>
          rw [joinSep]
          rw [joinSep] at ih
          rw [ih]
        | cons y t' =>
          rw [joinSep, List.cons_append, List.cons_append]
          rw [joinSep] at ih
          rw [ih]

theorem splitNl_joinSep_nl : ∀ (b : List Str), b ≠ [] → (∀ l ∈ b, '\n' ∉ l) →
    splitNl (joinSep ['\n'] b) = b := by
  intro b
  induction b with
  | nil => intro h; exact absurd rfl h
  | cons l rest ih =>
    intro _ hnl
    cases rest with
    | nil =>
      rw [joinSep]
      exact splitNl_no_nl_eq l (hnl l (by simp))
    | cons l2 rest2 =>
      rw [joinSep, List.append_assoc, List.singleton_append, splitNl_append_nl]
      rw [splitNl_no_nl_eq l (hnl l (by simp))]
      rw [ih (by simp) (fun x hx => hnl x (by simp [hx]))]
      rfl

theorem linesJoin_splitNl : ∀ (outs : List Str), outs ≠ [] →
    splitNl (joinSep ['\n', '\n'] outs) = linesJoin (outs.map splitNl) := by
  intro outs
  induction outs with
  | nil => intro h; exact absurd rfl h
  | cons s0 rest ih =>
    intro _
    cases rest with
    | nil => rfl
    | cons s1 rest2 =>
      rw [joinSep, List.append_assoc]
      rw [show (['\n', '\n'] : Str) ++ joinSep ['\n', '\n'] (s1 :: rest2) =
        '\n' :: ('\n' :: joinSep ['\n', '\n'] (s1 :: rest2)) from rfl]
      rw [splitNl_append_nl]
      rw [show splitNl ('\n' :: joinSep ['\n', '\n'] (s1 :: rest2)) =
        [] :: splitNl (joinSep ['\n', '\n'] (s1 :: rest2)) from by rw [splitNl, if_pos rfl]]
      rw [ih (by simp)]
      simp only [List.map_cons]
      rw [show linesJoin (splitNl s0 :: splitNl s1 :: List.map splitNl rest2) =
        splitNl s0 ++ [[]] ++ linesJoin (splitNl s1 :: List.map splitNl rest2) from rfl]
      rw [List.append_assoc]
      rfl

theorem gatherGo_chunk : ∀ (L rest buf : List Str), (∀ l ∈ L, trimSpace l ≠ []) →
    gatherGo (L ++ rest) buf = gatherGo rest (buf ++ L) := by
  intro L
  induction L with
  | nil =>
    intro rest buf _
    rw [List.nil_append, List.append_nil]
  | cons l L' ih =>
    intro rest buf hL
    rw [List.cons_append, gatherGo, if_neg (hL l (by simp))]
    rw [ih rest (buf ++ [l]) (fun x hx => hL x (by simp [hx]))]
    rw [List.append_assoc]
    rfl

theorem gatherGo_linesJoin : ∀ (Ls : List (List Str)),
    (∀ L ∈ Ls, L ≠ [] ∧ ∀ l ∈ L, trimSpace l ≠ []) →
    gatherGo (linesJoin Ls) [] = Ls := by
  intro Ls
  induction Ls with
  | nil =>
    intro _
    rfl
  | cons L rest ih =>
    intro hok
    obtain ⟨hLne, hLlines⟩ := hok L (by simp)
    cases rest with
    | nil =>
      rw [linesJoin]
      have h := gatherGo_chunk L [] [] hLlines
      rw [List.append_nil, List.nil_append] at h
      rw [h, gatherGo, if_neg hLne]
    | cons L2 rest2 =>
      rw [linesJoin, List.append_assoc, gatherGo_chunk L _ [] hLlines, List.nil_append]
      rw [List.singleton_append, gatherGo, if_pos (show trimSpace ([] : Str) = [] from rfl),
        if_neg hLne]
      rw [ih (fun x hx => hok x (by simp [hx]))]

theorem gatherGo_trailing_blank : ∀ (ls buf : List Str) (l0 : Str),
    trimSpace l0 = [] → gatherGo (ls ++ [l0]) buf = gatherGo ls buf := by
  intro ls
  induction ls with
  | nil =>
    intro buf l0 h0
    rw [List.nil_append]
    rw [show gatherGo [l0] buf =
      if trimSpace l0 = [] then (if buf = [] then gatherGo [] [] else buf :: gatherGo [] [])
      else gatherGo [] (buf ++ [l0]) from rfl]
    rw [if_pos h0]
    by_cases hbe : buf = []
    · rw [if_pos hbe, hbe]
    · rw [if_neg hbe]
      rw [show gatherGo ([] : List Str) buf = if buf = [] then [] else [buf] from rfl]
      rw [if_neg hbe]
      rfl
  | cons l ls' ih =>
    intro buf l0 h0
    rw [List.cons_append, gatherGo, gatherGo]
    by_cases hblank : trimSpace l = []
    · rw [if_pos hblank, if_pos hblank]
      by_cases hbe : buf = []
      · rw [if_pos hbe, if_pos hbe, ih [] l0 h0]
      · rw [if_neg hbe, if_neg hbe, ih [] l0 h0]
    · rw [if_neg hblank, if_neg hblank, ih (buf ++ [l]) l0 h0]

theorem replaceCRLF_cons (c : Char) (rest : Str) (hc : c ≠ '\r') :
    replaceCRLF (c :: rest) = c :: replaceCRLF rest := by
  rw [replaceCRLF.eq_def]
  split
  · rename_i heq
    exact absurd heq (by simp)
  · rename_i r heq
    have h1 : c = '\r' := by injection heq
    exact absurd h1 hc
  · rename_i c' r heq
    injection heq with h1 h2
    rw [← h1, ← h2]

theorem replaceCRLF_id (s : Str) (h : '\r' ∉ s) : replaceCRLF s = s := by
  induction s with
  | nil => rfl
  | cons c rest ih =>
    have hc : c ≠ '\r' := fun hh => h (by rw [hh]; simp)
    have hrest : '\r' ∉ rest := fun hh => h (by simp [hh])
    rw [replaceCRLF_cons c rest hc, ih hrest]

/-! ### The brace subsequence and the balance check -/

theorem mem_trimSpace_of_nonspace (l : Str) (c : Char) (hc : c ∈ l)
    (hns : isSpace c = false) : c ∈ trimSpace l := by
  rw [trimSpace, List.mem_reverse]
  have h1 : c ∈ l.dropWhile isSpace := by
    have hdec := List.takeWhile_append_dropWhile (p := isSpace) (l := l)
    rw [← hdec] at hc
    rcases List.mem_append.mp hc with h | h
    · have hsp := List.mem_takeWhile_imp h
      rw [hns] at hsp
      exact absurd hsp (by simp)
    · exact h
  have h2 : c ∈ (l.dropWhile isSpace).reverse := List.mem_reverse.mpr h1
  have hdec := List.takeWhile_append_dropWhile (p := isSpace)
    (l := (l.dropWhile isSpace).reverse)
  rw [← hdec] at h2
  rcases List.mem_append.mp h2 with h | h
  · have hsp := List.mem_takeWhile_imp h
    rw [hns] at hsp
    exact absurd hsp (by simp)
  · exact h

theorem trim_ne_of_nonspace (l : Str) (c : Char) (hc : c ∈ l)
    (hns : isSpace c = false) : trimSpace l ≠ [] :=
  List.ne_nil_of_mem (mem_trimSpace_of_nonspace l c hc hns)

theorem all_space_of_trim_nil (l : Str) (h : trimSpace l = []) :
    ∀ c ∈ l, isSpace c = true := by
  intro c hc
  cases hcc : isSpace c with
  | true => rfl
  | false => exact absurd h (trim_ne_of_nonspace l c hc hcc)

theorem braces_append (a b : Str) : braces (a ++ b) = braces a ++ braces b :=
  List.filter_append a b

theorem braces_cons_space (c : Char) (s : Str) (hsp : isSpace c = true) :
    braces (c :: s) = braces s := by
  obtain ⟨h1, h2⟩ := isSpace_not_brace c hsp
  rw [braces, List.filter_cons, if_neg (by simp [h1, h2]), braces]

theorem braces_all_space (l : Str) (hall : ∀ c ∈ l, isSpace c = true) :
    braces l = [] := by
  rw [braces]
  rw [List.filter_eq_nil_iff]
  intro c hc
  obtain ⟨h1, h2⟩ := isSpace_not_brace c (hall c hc)
  simp [h1, h2]

theorem scanLevel_braces (s : Str) : ∀ n, scanLevel s n = scanLevel (braces s) n := by
  induction s with
  | nil => intro n; rfl
  | cons c rest ih =>
    intro n
    by_cases hob : c = '\x7b'
    · rw [show scanLevel (c :: rest) n = scanLevel rest (n + 1) from by
        rw [scanLevel, if_pos hob]]
      rw [show braces (c :: rest) = c :: braces rest from by
        rw [braces, List.filter_cons, if_pos (by simp [hob])]; rfl]
      rw [show scanLevel (c :: braces rest) n = scanLevel (braces rest) (n + 1) from by
        rw [scanLevel, if_pos hob]]
      exact ih (n + 1)
    · by_cases hcb : c = '\x7d'
      · rw [show braces (c :: rest) = c :: braces rest from by
          rw [braces, List.filter_cons, if_pos (by simp [hcb])]; rfl]
        rw [show scanLevel (c :: rest) n =
          (if n = 0 then none else scanLevel rest (n - 1)) from by
          rw [scanLevel, if_neg hob, if_pos hcb]]
        rw [show scanLevel (c :: braces rest) n =
          (if n = 0 then none else scanLevel (braces rest) (n - 1)) from by
          rw [scanLevel, if_neg hob, if_pos hcb]]
        by_cases hn : n = 0
        · rw [if_pos hn, if_pos hn]
        · rw [if_neg hn, if_neg hn]
          exact ih (n - 1)
      · rw [show scanLevel (c :: rest) n = scanLevel rest n from by
          rw [scanLevel, if_neg hob, if_neg hcb]]
        rw [show braces (c :: rest) = braces rest from by
          rw [braces, List.filter_cons, if_neg (by simp [hob, hcb])]; rfl]
        exact ih n

theorem check_braces (s : Str) :
    checkUnterminatedMarkup s = checkUnterminatedMarkup (braces s) := by
  simp only [checkUnterminatedMarkup]
  rw [scanLevel_braces s 0]

theorem braces_joinSep (sep : Str) (hsep : braces sep = []) :
    ∀ ls : List Str, braces (joinSep sep ls) = (ls.map braces).flatten := by
  intro ls
  induction ls with
  | nil => rfl
  | cons x rest ih =>
    cases rest with
    | nil =>
      rw [joinSep]
      simp
    | cons y rest2 =>
      rw [joinSep, braces_append, braces_append, hsep, List.append_nil, ih]
      simp

theorem braces_colonJoin : ∀ b : List Str, braces (colonJoin b) = (b.map braces).flatten := by
  intro b
  induction b with
  | nil => rfl
  | cons l rest ih =>
    cases rest with
    | nil =>
      rw [colonJoin]
      simp
    | cons l2 rest2 =>
      rw [colonJoin, braces_append, braces_append, ih]
      have hsep : braces (if List.isSuffixOf [':'] (trimSpace l) then ['\n'] else [' ']) = [] := by
        by_cases hcol : List.isSuffixOf [':'] (trimSpace l) = true
        · rw [if_pos hcol]
          rfl
        · rw [if_neg hcol]
          rfl
      rw [hsep, List.append_nil]
      simp

theorem braces_fieldsAux : ∀ (s acc : Str),
    ((fieldsAux s acc).map braces).flatten = braces acc.reverse ++ braces s := by
  intro s
  induction s with
  | nil =>
    intro acc
    rw [fieldsAux]
    by_cases hae : acc = []
    · rw [if_pos hae, hae]
      rfl
    · rw [if_neg hae]
      simp [braces]
  | cons c rest ih =>
    intro acc
    rw [show fieldsAux (c :: rest) acc =
      if isSpace c then (if acc = [] then fieldsAux rest [] else acc.reverse :: fieldsAux rest [])
      else fieldsAux rest (c :: acc) from rfl]
    by_cases hsp : isSpace c = true
    · rw [if_pos hsp, braces_cons_space c rest hsp]
      by_cases hae : acc = []
      · rw [if_pos hae, ih [], hae]
      · rw [if_neg hae, List.map_cons, List.flatten_cons, ih []]
        rw [show braces ([] : Str).reverse = [] from rfl, List.nil_append]
    · rw [if_neg hsp, ih (c :: acc), List.reverse_cons, braces_append]
      rw [show braces (c :: rest) = braces [c] ++ braces rest from braces_append [c] rest]
      rw [List.append_assoc]

theorem braces_fields (s : Str) : ((fields s).map braces).flatten = braces s := by
  rw [fields, braces_fieldsAux s []]
  rfl

theorem braces_wrapGo (m : Int) : ∀ (ws : List Str) (cur : Str),
    braces (wrapGo m ws cur) = braces cur ++ (ws.map braces).flatten := by
  intro ws
  induction ws with
  | nil =>
    intro cur
    rw [wrapGo]
    simp
  | cons w ws' ih =>
    intro cur
    rw [wrapGo]
    by_cases hlen : (cur.length : Int) + 1 + (w.length : Int) > m
    · rw [if_pos hlen, braces_append, braces_cons_space '\n' _ (by decide), ih w]
      simp
    · rw [if_neg hlen, ih (cur ++ ' ' :: w), braces_append,
        braces_cons_space ' ' w (by decide)]
      simp

theorem braces_ventBLL (p : Str) (m : Int) :
    braces (ventilateByLineLength p m) = braces p := by
  rw [ventilateByLineLength]
  cases hf : fields p with
  | nil =>
    rw [← braces_fields p, hf]
    rfl
  | cons w ws =>
    rw [braces_wrapGo m ws w, ← braces_fields p, hf]
    simp

theorem braces_block (b : List Str) (cfg : Config) (s : Str)
    (hsb : cfg.sentenceBreak = false) (hrun : ventilateBlock b cfg = some s) :
    braces s = (b.map braces).flatten := by
  rw [ventilateBlock] at hrun
  by_cases hnp : (isNonProseBlock (trimSpace (b.headD [])) ||
      List.isPrefixOf ['`', '`', '`'] (trimSpace (b.headD []))) = true
  · rw [if_pos hnp] at hrun
    rw [← Option.some_injective _ hrun]
    exact braces_joinSep ['\n'] rfl b
  · rw [if_neg hnp, ventilateParagraph, if_neg (by rw [hsb]; simp)] at hrun
    by_cases hwrap : (cfg.respectMaxLineLength && decide (cfg.maxLineLength > 0)) = true
    · rw [if_pos hwrap] at hrun
      rw [← Option.some_injective _ hrun, braces_ventBLL]
      exact braces_colonJoin b
    · rw [if_neg hwrap] at hrun
      rw [← Option.some_injective _ hrun]
      exact braces_colonJoin b

theorem braces_processBlocks (cfg : Config) (hsb : cfg.sentenceBreak = false) :
    ∀ (bs : List (List Str)) (outs : List Str), processBlocks bs cfg = some outs →
    (outs.map braces).flatten = (bs.map (fun b => (b.map braces).flatten)).flatten := by
  intro bs
  induction bs with
  | nil =>
    intro outs h
    rw [← Option.some_injective _ (h : some [] = some outs)]
    rfl
  | cons b rest ih =>
    intro outs h
    rw [processBlocks] at h
    cases hvb : ventilateBlock b cfg with
    | none =>
      rw [hvb] at h
      simp at h
    | some s0 =>
      rw [hvb] at h
      cases hpb : processBlocks rest cfg with
      | none =>
        rw [hpb] at h
        simp at h
      | some outs' =>
        rw [hpb] at h
        rw [← Option.some_injective _ h]
        rw [List.map_cons, List.flatten_cons, List.map_cons, List.flatten_cons]
        rw [braces_block b cfg s0 hsb hvb, ih outs' hpb]

theorem braces_gatherGo : ∀ (ls buf : List Str),
    ((gatherGo ls buf).map (fun b => (b.map braces).flatten)).flatten =
      (buf.map braces).flatten ++ (ls.map braces).flatten := by
  intro ls
  induction ls with
  | nil =>
    intro buf
    rw [gatherGo]
    by_cases hbe : buf = []
    · rw [if_pos hbe, hbe]
      rfl
    · rw [if_neg hbe]
      simp
  | cons l rest ih =>
    intro buf
    rw [gatherGo]
    by_cases hblank : trimSpace l = []
    · have hbl : braces l = [] := braces_all_space l (all_space_of_trim_nil l hblank)
      rw [if_pos hblank]
      by_cases hbe : buf = []
      · rw [if_pos hbe, ih [], hbe]
        simp [hbl]
      · rw [if_neg hbe, List.map_cons, List.flatten_cons, ih []]
        simp [hbl]
    · rw [if_neg hblank, ih (buf ++ [l])]
      simp [List.append_assoc]

theorem braces_splitNl (s : Str) : ((splitNl s).map braces).flatten = braces s := by
  conv_rhs => rw [← joinSep_splitNl s]
  rw [braces_joinSep ['\n'] rfl]

/-! ### Colon-join stability under re-splitting -/

theorem dropWhile_append_pos (pr : Char → Bool) (x y : Str) (hx : x.dropWhile pr ≠ []) :
    (x ++ y).dropWhile pr = x.dropWhile pr ++ y := by
  rw [List.dropWhile_append, if_neg (by simp [List.isEmpty_iff, hx])]

theorem dropWhile_append_neg (pr : Char → Bool) (x y : Str) (hx : x.dropWhile pr = []) :
    (x ++ y).dropWhile pr = y.dropWhile pr := by
  rw [List.dropWhile_append, if_pos (by simp [List.isEmpty_iff, hx])]

theorem trim_last_append (x y : Str) (c0 : Char) (hc0m : c0 ∈ y) (hc0 : isSpace c0 = false) :
    (trimSpace (x ++ y)).getLast? = (trimSpace y).getLast? := by
  have hdy_ne : y.dropWhile isSpace ≠ [] := by
    intro hnil
    have hall := List.dropWhile_eq_nil_iff.mp hnil
    rw [hall c0 hc0m] at hc0
    exact absurd hc0 (by simp)
  have hc0dy : c0 ∈ y.dropWhile isSpace := by
    have hdec := List.takeWhile_append_dropWhile (p := isSpace) (l := y)
    rw [← hdec] at hc0m
    rcases List.mem_append.mp hc0m with h | h
    · have hsp := List.mem_takeWhile_imp h
      rw [hc0] at hsp
      exact absurd hsp (by simp)
    · exact h
  have hdyrev_ne : (y.dropWhile isSpace).reverse.dropWhile isSpace ≠ [] := by
    intro hnil
    have hall := List.dropWhile_eq_nil_iff.mp hnil
    have hmem : c0 ∈ (y.dropWhile isSpace).reverse := List.mem_reverse.mpr hc0dy
    rw [hall c0 hmem] at hc0
    exact absurd hc0 (by simp)
  rw [trimSpace, trimSpace, List.getLast?_reverse, List.getLast?_reverse]
  by_cases hx : x.dropWhile isSpace = []
  · rw [dropWhile_append_neg isSpace x y hx]
  · rw [dropWhile_append_pos isSpace x y hx, List.reverse_append]
    have hyrev : y.reverse = (y.dropWhile isSpace).reverse ++ (y.takeWhile isSpace).reverse := by
      rw [← List.reverse_append, List.takeWhile_append_dropWhile]
    rw [hyrev, List.append_assoc, dropWhile_append_pos isSpace _ _ hdyrev_ne,
      List.head?_append_of_ne_nil _ hdyrev_ne]

theorem trim_colon_iff (a l : Str) (c0 : Char) (hc0m : c0 ∈ l) (hc0 : isSpace c0 = false) :
    (List.isSuffixOf [':'] (trimSpace (a ++ ' ' :: l)) = true) ↔
      (List.isSuffixOf [':'] (trimSpace l) = true) := by
  rw [suffix_single_iff, suffix_single_iff]
  rw [show a ++ ' ' :: l = (a ++ [' ']) ++ l from by simp]
  rw [trim_last_append (a ++ [' ']) l c0 hc0m hc0]

theorem colonJoin_stable : ∀ (b : List Str), b ≠ [] →
    (∀ l ∈ b, trimSpace l ≠ [] ∧ '\n' ∉ l) →
    (∀ x ∈ splitNl (colonJoin b), trimSpace x ≠ []) ∧
      colonJoin (splitNl (colonJoin b)) = colonJoin b := by
  intro b
  induction b with
  | nil => intro h; exact absurd rfl h
  | cons l rest ih =>
    intro _ hok
    obtain ⟨hltr, hlnl⟩ := hok l (by simp)
    cases rest with
    | nil =>
      rw [colonJoin, splitNl_no_nl_eq l hlnl]
      refine ⟨?_, rfl⟩
      intro x hx
      simp at hx
      rw [hx]
      exact hltr
    | cons l2 rest2 =>
      obtain ⟨ihlines, ihstable⟩ := ih (by simp) (fun x hx => hok x (by simp [hx]))
      cases hsplit : splitNl (colonJoin (l2 :: rest2)) with
      | nil => exact absurd hsplit (splitNl_ne_nil _)
      | cons h t =>
        rw [hsplit] at ihstable ihlines
        by_cases hcol : List.isSuffixOf [':'] (trimSpace l) = true
        · have hrw : colonJoin (l :: l2 :: rest2) = l ++ '\n' :: colonJoin (l2 :: rest2) := by
            rw [colonJoin, if_pos hcol]
            simp
          rw [hrw, splitNl_append_nl, splitNl_no_nl_eq l hlnl, hsplit,
            List.singleton_append]
          constructor
          · intro x hx
            rcases List.mem_cons.mp hx with rfl | hx2
            · exact hltr
            · exact ihlines x hx2
          · rw [colonJoin, if_pos hcol, ihstable]
            simp
        · have hrw : colonJoin (l :: l2 :: rest2) =
              (l ++ [' ']) ++ colonJoin (l2 :: rest2) := by
            rw [colonJoin, if_neg hcol]
          have hnl' : '\n' ∉ l ++ [' '] := by
            intro hmem
            rcases List.mem_append.mp hmem with hm | hm
            · exact hlnl hm
            · simp at hm
          rw [hrw, splitNl_append_nonl (l ++ [' ']) _ hnl' h t hsplit]
          have hlsh : (l ++ [' ']) ++ h = l ++ ' ' :: h := by simp
          rw [hlsh]
          obtain ⟨c0, hc0m, hc0⟩ := exists_nonspace_of_trim h (ihlines h (by simp))
          constructor
          · intro x hx
            rcases List.mem_cons.mp hx with rfl | hx2
            · exact trim_ne_of_nonspace _ c0 (by simp [hc0m]) hc0
            · exact ihlines x (by simp [hx2])
          · cases t with
            | nil =>
              rw [colonJoin]
              have hh : h = colonJoin (l2 :: rest2) := by
                rw [← ihstable]
                rfl
              rw [← hh]
              simp
            | cons y t' =>
              rw [colonJoin]
              rw [← ihstable, colonJoin]
              have hiff := trim_colon_iff l h c0 hc0m hc0
              by_cases hch : List.isSuffixOf [':'] (trimSpace h) = true
              · rw [if_pos hch, if_pos (hiff.mpr hch)]
                simp
              · rw [if_neg hch, if_neg (fun hc => hch (hiff.mp hc))]
                simp

/-! ### Character provenance of outputs -/

theorem mem_splitNl : ∀ (s : Str) (l : Str), l ∈ splitNl s → ∀ c ∈ l, c ∈ s := by
  intro s
  induction s with
  | nil =>
    intro l hl c hc
    rw [show splitNl [] = [[]] from rfl] at hl
    simp at hl
    rw [hl] at hc
    simp at hc
  | cons c0 rest ih =>
    intro l hl c hc
    by_cases h0 : c0 = '\n'
    · rw [splitNl, if_pos h0] at hl
      rcases List.mem_cons.mp hl with rfl | hl2
      · simp at hc
      · exact List.mem_cons.mpr (Or.inr (ih l hl2 c hc))
    · rw [splitNl, if_neg h0] at hl
      cases heq : splitNl rest with
      | nil => exact absurd heq (splitNl_ne_nil rest)
      | cons h t =>
        rw [heq] at hl
        rcases List.mem_cons.mp hl with rfl | hl2
        · rcases List.mem_cons.mp hc with rfl | hc2
          · simp
          · exact List.mem_cons.mpr (Or.inr (ih h (by rw [heq]; simp) c hc2))
        · exact List.mem_cons.mpr (Or.inr (ih l (by rw [heq]; simp [hl2]) c hc))

theorem colonJoin_mem_rev : ∀ (b : List Str) (c : Char), c ∈ colonJoin b →
    (∃ l ∈ b, c ∈ l) ∨ c = '\n' ∨ c = ' ' := by
  intro b
  induction b with
  | nil =>
    intro c hc
    simp [colonJoin] at hc
  | cons l rest ih =>
    intro c hc
    cases rest with
    | nil =>
      rw [colonJoin] at hc
      exact Or.inl ⟨l, by simp, hc⟩
    | cons l2 rest2 =>
      rw [colonJoin] at hc
      rcases List.mem_append.mp hc with hm | hm
      · rcases List.mem_append.mp hm with hm2 | hm2
        · exact Or.inl ⟨l, by simp, hm2⟩
        · by_cases hcol : List.isSuffixOf [':'] (trimSpace l) = true
          · rw [if_pos hcol] at hm2
            simp at hm2
            exact Or.inr (Or.inl hm2)
          · rw [if_neg hcol] at hm2
            simp at hm2
            exact Or.inr (Or.inr hm2)
      · rcases ih c hm with ⟨l', hl', hc'⟩ | h
        · exact Or.inl ⟨l', by simp [hl'], hc'⟩
        · exact Or.inr h

theorem mem_joinSep (sep : Str) : ∀ (ls : List Str) (c : Char), c ∈ joinSep sep ls →
    (∃ s ∈ ls, c ∈ s) ∨ c ∈ sep := by
  intro ls
  induction ls with
  | nil =>
    intro c hc
    simp [joinSep] at hc
  | cons x rest ih =>
    intro c hc
    cases rest with
    | nil =>
      rw [joinSep] at hc
      exact Or.inl ⟨x, by simp, hc⟩
    | cons y rest2 =>
      rw [joinSep] at hc
      rcases List.mem_append.mp hc with hm | hm
      · rcases List.mem_append.mp hm with hm2 | hm2
        · exact Or.inl ⟨x, by simp, hm2⟩
        · exact Or.inr hm2
      · rcases ih c hm with ⟨s', hs', hc'⟩ | h
        · exact Or.inl ⟨s', by simp [hs'], hc'⟩
        · exact Or.inr h

theorem mem_fieldsAux : ∀ (s acc w : Str), w ∈ fieldsAux s acc → ∀ c ∈ w, c ∈ s ∨ c ∈ acc := by
  intro s
  induction s with
  | nil =>
    intro acc w hw c hc
    rw [fieldsAux] at hw
    by_cases hae : acc = []
    · rw [if_pos hae] at hw
      simp at hw
    · rw [if_neg hae] at hw
      simp at hw
      rw [hw] at hc
      exact Or.inr (List.mem_reverse.mp hc)
  | cons c0 rest ih =>
    intro acc w hw c hc
    rw [show fieldsAux (c0 :: rest) acc =
      if isSpace c0 then
        (if acc = [] then fieldsAux rest [] else acc.reverse :: fieldsAux rest [])
      else fieldsAux rest (c0 :: acc) from rfl] at hw
    by_cases hsp : isSpace c0 = true
    · rw [if_pos hsp] at hw
      by_cases hae : acc = []
      · rw [if_pos hae] at hw
        rcases ih [] w hw c hc with h | h
        · exact Or.inl (by simp [h])
        · simp at h
      · rw [if_neg hae] at hw
        rcases List.mem_cons.mp hw with rfl | hw2
        · exact Or.inr (List.mem_reverse.mp hc)
        · rcases ih [] w hw2 c hc with h | h
          · exact Or.inl (by simp [h])
          · simp at h
    · rw [if_neg hsp] at hw
      rcases ih (c0 :: acc) w hw c hc with h | h
      · exact Or.inl (by simp [h])
      · rcases List.mem_cons.mp h with rfl | h2
        · exact Or.inl (by simp)
        · exact Or.inr h2

theorem mem_fields (s w : Str) (hw : w ∈ fields s) (c : Char) (hc : c ∈ w) : c ∈ s := by
  rcases mem_fieldsAux s [] w hw c hc with h | h
  · exact h
  · simp at h

theorem mem_wrapGo (m : Int) : ∀ (ws : List Str) (cur : Str) (c : Char),
    c ∈ wrapGo m ws cur → c ∈ cur ∨ (∃ w ∈ ws, c ∈ w) ∨ c = '\n' ∨ c = ' ' := by
  intro ws
  induction ws with
  | nil =>
    intro cur c hc
    rw [wrapGo] at hc
    exact Or.inl hc
  | cons w ws' ih =>
    intro cur c hc
    rw [wrapGo] at hc
    by_cases hlen : (cur.length : Int) + 1 + (w.length : Int) > m
    · rw [if_pos hlen] at hc
      rcases List.mem_append.mp hc with hm | hm
      · exact Or.inl hm
      · rcases List.mem_cons.mp hm with rfl | hm2
        · exact Or.inr (Or.inr (Or.inl rfl))
        · rcases ih w c hm2 with h | ⟨w', hw', hcw⟩ | h
          · exact Or.inr (Or.inl ⟨w, by simp, h⟩)
          · exact Or.inr (Or.inl ⟨w', by simp [hw'], hcw⟩)
          · exact Or.inr (Or.inr h)
    · rw [if_neg hlen] at hc
      rcases ih (cur ++ ' ' :: w) c hc with h | ⟨w', hw', hcw⟩ | h
      · rcases List.mem_append.mp h with hm | hm
        · exact Or.inl hm
        · rcases List.mem_cons.mp hm with rfl | hm2
          · exact Or.inr (Or.inr (Or.inr rfl))
          · exact Or.inr (Or.inl ⟨w, by simp, hm2⟩)
      · exact Or.inr (Or.inl ⟨w', by simp [hw'], hcw⟩)
      · exact Or.inr (Or.inr h)

theorem mem_ventBLL (p : Str) (m : Int) (c : Char)
    (hc : c ∈ ventilateByLineLength p m) : c ∈ p ∨ c = '\n' ∨ c = ' ' := by
  rw [ventilateByLineLength] at hc
  cases hf : fields p with
  | nil =>
    rw [hf] at hc
    simp at hc
  | cons w ws =>
    rw [hf] at hc
    rcases mem_wrapGo m ws w c hc with h | ⟨w', hw', hcw⟩ | h
    · exact Or.inl (mem_fields p w (by rw [hf]; simp) c h)
    · exact Or.inl (mem_fields p w' (by rw [hf]; simp [hw']) c hcw)
    · exact Or.inr h

theorem ventilateBlock_chars (b : List Str) (cfg : Config) (s : Str)
    (hsb : cfg.sentenceBreak = false) (hrun : ventilateBlock b cfg = some s) :
    ∀ c ∈ s, (∃ l ∈ b, c ∈ l) ∨ c = '\n' ∨ c = ' ' := by
  intro c hc
  rw [ventilateBlock] at hrun
  by_cases hnp : (isNonProseBlock (trimSpace (b.headD [])) ||
      List.isPrefixOf ['`', '`', '`'] (trimSpace (b.headD []))) = true
  · rw [if_pos hnp] at hrun
    rw [← Option.some_injective _ hrun] at hc
    rcases mem_joinSep ['\n'] b c hc with h | h
    · exact Or.inl h
    · simp at h
      exact Or.inr (Or.inl h)
  · rw [if_neg hnp, ventilateParagraph, if_neg (by rw [hsb]; simp)] at hrun
    by_cases hwrap : (cfg.respectMaxLineLength && decide (cfg.maxLineLength > 0)) = true
    · rw [if_pos hwrap] at hrun
      rw [← Option.some_injective _ hrun] at hc
      rcases mem_ventBLL (colonJoin b) cfg.maxLineLength c hc with h | h
      · exact colonJoin_mem_rev b c h
      · exact Or.inr h
    · rw [if_neg hwrap] at hrun
      rw [← Option.some_injective _ hrun] at hc
      exact colonJoin_mem_rev b c hc

theorem processBlocks_mem (cfg : Config) : ∀ (bs : List (List Str)) (outs : List Str),
    processBlocks bs cfg = some outs → ∀ s ∈ outs, ∃ b ∈ bs, ventilateBlock b cfg = some s := by
  intro bs
  induction bs with
  | nil =>
    intro outs h s hs
    rw [← Option.some_injective _ (h : some [] = some outs)] at hs
    simp at hs
  | cons b rest ih =>
    intro outs h s hs
    rw [processBlocks] at h
    cases hvb : ventilateBlock b cfg with
    | none =>
      rw [hvb] at h
      simp at h
    | some s0 =>
      rw [hvb] at h
      cases hpb : processBlocks rest cfg with
      | none =>
        rw [hpb] at h
        simp at h
      | some outs' =>
        rw [hpb] at h
        rw [← Option.some_injective _ h] at hs
        rcases List.mem_cons.mp hs with rfl | hmem
        · exact ⟨b, by simp, hvb⟩
        · obtain ⟨b', hb', hr'⟩ := ih outs' hpb s hmem
          exact ⟨b', by simp [hb'], hr'⟩

theorem gatherGo_mem_src : ∀ (ls buf : List Str) (b : List Str) (l : Str),
    b ∈ gatherGo ls buf → l ∈ b → l ∈ ls ∨ l ∈ buf := by
  intro ls
  induction ls with
  | nil =>
    intro buf b l hb hl
    rw [gatherGo] at hb
    by_cases hbe : buf = []
    · rw [if_pos hbe] at hb
      simp at hb
    · rw [if_neg hbe] at hb
      simp at hb
      rw [hb] at hl
      exact Or.inr hl
  | cons l0 rest ih =>
    intro buf b l hb hl
    rw [gatherGo] at hb
    by_cases hblank : trimSpace l0 = []
    · rw [if_pos hblank] at hb
      by_cases hbe : buf = []
      · rw [if_pos hbe] at hb
        rcases ih [] b l hb hl with h | h
        · exact Or.inl (by simp [h])
        · simp at h
      · rw [if_neg hbe] at hb
        rcases List.mem_cons.mp hb with rfl | hb2
        · exact Or.inr hl
        · rcases ih [] b l hb2 hl with h | h
          · exact Or.inl (by simp [h])
          · simp at h
    · rw [if_neg hblank] at hb
      rcases ih (buf ++ [l0]) b l hb hl with h | h
      · exact Or.inl (by simp [h])
      · rcases List.mem_append.mp h with h2 | h2
        · exact Or.inr h2
        · simp at h2
          exact Or.inl (by simp [h2])

/-! ### Fields of joined lines -/

theorem fields_colonJoin : ∀ ls : List Str,
    fields (colonJoin ls) = (ls.map fields).flatten := by
  intro ls
  induction ls with
  | nil => rfl
  | cons l rest ih =>
    cases rest with
    | nil =>
      rw [colonJoin]
      simp
    | cons l2 rest2 =>
      by_cases hcol : List.isSuffixOf [':'] (trimSpace l) = true
      · rw [show colonJoin (l :: l2 :: rest2) = l ++ '\n' :: colonJoin (l2 :: rest2) from by
          rw [colonJoin, if_pos hcol]; simp]
        rw [fields_append_space l _ '\n' (by decide), ih]
        simp
      · rw [show colonJoin (l :: l2 :: rest2) = l ++ ' ' :: colonJoin (l2 :: rest2) from by
          rw [colonJoin, if_neg hcol]; simp]
        rw [fields_append_space l _ ' ' (by decide), ih]
        simp

theorem fields_joinSep_nl : ∀ ls : List Str,
    fields (joinSep ['\n'] ls) = (ls.map fields).flatten := by
  intro ls
  induction ls with
  | nil => rfl
  | cons l rest ih =>
    cases rest with
    | nil =>
      rw [joinSep]
      simp
    | cons l2 rest2 =>
      rw [show joinSep ['\n'] (l :: l2 :: rest2) =
        l ++ '\n' :: joinSep ['\n'] (l2 :: rest2) from by rw [joinSep]; simp]
      rw [fields_append_space l _ '\n' (by decide), ih]
      simp

theorem wrap_congr (p1 p2 : Str) (m : Int) (h : fields p1 = fields p2) :
    ventilateByLineLength p1 m = ventilateByLineLength p2 m := by
  rw [ventilateByLineLength, ventilateByLineLength, h]

theorem wrapGo_lines_nonblank (m : Int) : ∀ (ws : List Str) (cur : Str),
    (∀ w ∈ ws, w ≠ [] ∧ ∀ c ∈ w, isSpace c = false) →
    trimSpace cur ≠ [] → '\n' ∉ cur →
    ∀ x ∈ splitNl (wrapGo m ws cur), trimSpace x ≠ [] := by
  intro ws
  induction ws with
  | nil =>
    intro cur _ hcur hnl x hx
    rw [wrapGo, splitNl_no_nl_eq cur hnl] at hx
    simp at hx
    rw [hx]
    exact hcur
  | cons w ws' ih =>
    intro cur hws hcur hnl x hx
    obtain ⟨hwne, hwns⟩ := hws w (by simp)
    have hws' : ∀ y ∈ ws', y ≠ [] ∧ ∀ c ∈ y, isSpace c = false :=
      fun y hy => hws y (by simp [hy])
    have hwtr : trimSpace w ≠ [] := by
      cases w with
      | nil => exact absurd rfl hwne
      | cons cw w' => exact trim_ne_of_nonspace _ cw (by simp) (hwns cw (by simp))
    have hwnl : '\n' ∉ w := by
      intro hm
      have := hwns '\n' hm
      exact absurd this (by decide)
    rw [wrapGo] at hx
    by_cases hlen : (cur.length : Int) + 1 + (w.length : Int) > m
    · rw [if_pos hlen, splitNl_append_nl, splitNl_no_nl_eq cur hnl,
        List.singleton_append] at hx
      rcases List.mem_cons.mp hx with rfl | hx2
      · exact hcur
      · exact ih w hws' hwtr hwnl x hx2
    · rw [if_neg hlen] at hx
      obtain ⟨c0, hc0m, hc0⟩ := exists_nonspace_of_trim cur hcur
      refine ih (cur ++ ' ' :: w) hws' (trim_ne_of_nonspace _ c0 (by simp [hc0m]) hc0) ?_ x hx
      intro hm
      rcases List.mem_append.mp hm with h2 | h2
      · exact hnl h2
      · rcases List.mem_cons.mp h2 with h3 | h3
        · simp at h3
        · exact hwnl h3

/-! ### Stability of block processing under re-splitting -/

theorem ventilateBlock_stable (b : List Str) (cfg : Config) (s : Str)
    (hsb : cfg.sentenceBreak = false) (hbne : b ≠ [])
    (hlines : ∀ l ∈ b, trimSpace l ≠ [] ∧ '\n' ∉ l)
    (hrun : ventilateBlock b cfg = some s) :
    ventilateBlock (splitNl s) cfg = some s ∧ ∀ x ∈ splitNl s, trimSpace x ≠ [] := by
  rw [ventilateBlock] at hrun
  by_cases hnp : (isNonProseBlock (trimSpace (b.headD [])) ||
      List.isPrefixOf ['`', '`', '`'] (trimSpace (b.headD []))) = true
  · rw [if_pos hnp] at hrun
    have hs := Option.some_injective _ hrun
    have hsplit : splitNl s = b := by
      rw [← hs]
      exact splitNl_joinSep_nl b hbne (fun l hl => (hlines l hl).2)
    constructor
    · rw [hsplit, ventilateBlock, if_pos hnp, hs]
    · rw [hsplit]
      intro x hx
      exact (hlines x hx).1
  · rw [if_neg hnp, ventilateParagraph, if_neg (by rw [hsb]; simp)] at hrun
    by_cases hwrap : (cfg.respectMaxLineLength && decide (cfg.maxLineLength > 0)) = true
    · rw [if_pos hwrap] at hrun
      have hs := Option.some_injective _ hrun
      obtain ⟨l0, hl0⟩ := List.exists_mem_of_ne_nil b hbne
      obtain ⟨c0, hc0m, hc0⟩ := exists_nonspace_of_trim l0 (hlines l0 hl0).1
      have hc0p : c0 ∈ colonJoin b := colonJoin_mem b l0 hl0 c0 hc0m
      have hlnb : ∀ x ∈ splitNl s, trimSpace x ≠ [] := by
        cases hf : fields (colonJoin b) with
        | nil =>
          rw [fields] at hf
          obtain ⟨_, hall⟩ := fieldsAux_nil_all_space (colonJoin b) [] hf
          rw [hall c0 hc0p] at hc0
          exact absurd hc0 (by simp)
        | cons w ws =>
          have hv : ventilateByLineLength (colonJoin b) cfg.maxLineLength =
              wrapGo cfg.maxLineLength ws w := by
            rw [ventilateByLineLength, hf]
          rw [← hs, hv]
          have hok := fieldsAux_ok (colonJoin b) [] (by simp)
          have hfx : fieldsAux (colonJoin b) [] = w :: ws := hf
          have hwok : w ≠ [] ∧ ∀ c ∈ w, isSpace c = false :=
            hok w (by rw [hfx]; simp)
          have hwsok : ∀ y ∈ ws, y ≠ [] ∧ ∀ c ∈ y, isSpace c = false :=
            fun y hy => hok y (by rw [hfx]; simp [hy])
          have hwtr : trimSpace w ≠ [] := by
            cases w with
            | nil => exact absurd rfl hwok.1
            | cons cw w' => exact trim_ne_of_nonspace _ cw (by simp) (hwok.2 cw (by simp))
          have hwnl : '\n' ∉ w := by
            intro hm
            have hsp := hwok.2 '\n' hm
            exact absurd hsp (by decide)
          exact wrapGo_lines_nonblank cfg.maxLineLength ws w hwsok hwtr hwnl
      refine ⟨?_, hlnb⟩
      rw [ventilateBlock]
      by_cases hnp2 : (isNonProseBlock (trimSpace ((splitNl s).headD [])) ||
          List.isPrefixOf ['`', '`', '`'] (trimSpace ((splitNl s).headD []))) = true
      · rw [if_pos hnp2, joinSep_splitNl s]
      · rw [if_neg hnp2, ventilateParagraph, if_neg (by rw [hsb]; simp), if_pos hwrap]
        have hfe : fields (colonJoin (splitNl s)) = fields (colonJoin b) := by
          rw [fields_colonJoin (splitNl s), ← fields_joinSep_nl (splitNl s),
            joinSep_splitNl s, ← hs, ventilateByLineLength_fields]
        rw [wrap_congr _ _ _ hfe, hs]
    · rw [if_neg hwrap] at hrun
      have hs := Option.some_injective _ hrun
      obtain ⟨hcl, hcs⟩ := colonJoin_stable b hbne hlines
      refine ⟨?_, by rw [← hs]; exact hcl⟩
      rw [ventilateBlock]
      by_cases hnp2 : (isNonProseBlock (trimSpace ((splitNl s).headD [])) ||
          List.isPrefixOf ['`', '`', '`'] (trimSpace ((splitNl s).headD []))) = true
      · rw [if_pos hnp2, joinSep_splitNl s]
      · rw [if_neg hnp2, ventilateParagraph, if_neg (by rw [hsb]; simp), if_neg hwrap]
        rw [← hs, hcs]

theorem processBlocks_stable (cfg : Config) (hsb : cfg.sentenceBreak = false) :
    ∀ (bs : List (List Str)) (outs : List Str),
    processBlocks bs cfg = some outs →
    (∀ b ∈ bs, b ≠ [] ∧ ∀ l ∈ b, trimSpace l ≠ [] ∧ '\n' ∉ l) →
    processBlocks (outs.map splitNl) cfg = some outs ∧
      ∀ L ∈ outs.map splitNl, L ≠ [] ∧ ∀ l ∈ L, trimSpace l ≠ [] := by
  intro bs
  induction bs with
  | nil =>
    intro outs h _
    rw [← Option.some_injective _ (h : some [] = some outs)]
    exact ⟨rfl, by simp⟩
  | cons b rest ih =>
    intro outs h hok
    rw [processBlocks] at h
    cases hvb : ventilateBlock b cfg with
    | none =>
      rw [hvb] at h
      simp at h
    | some s0 =>
      rw [hvb] at h
      cases hpb : processBlocks rest cfg with
      | none =>
        rw [hpb] at h
        simp at h
      | some outs' =>
        rw [hpb] at h
        obtain ⟨hbne, hbl⟩ := hok b (by simp)
        obtain ⟨hstab, hlnb⟩ := ventilateBlock_stable b cfg s0 hsb hbne hbl hvb
        obtain ⟨ihp, ihl⟩ := ih outs' hpb (fun b' hb' => hok b' (by simp [hb']))
        rw [← Option.some_injective _ h, List.map_cons]
        constructor
        · rw [processBlocks, hstab, ihp]
        · intro L hL
          rcases List.mem_cons.mp hL with rfl | hL2
          · exact ⟨splitNl_ne_nil s0, fun l hl => hlnb l hl⟩
          · exact ihl L hL2

/-! ### Claims -/

/-- C1 (counterexample): a brace-balanced input on which `Ventilate`
nevertheless returns the error (`none` models Go's `("", errUnterminatedMarkup)`):
the span opened in one block is closed only after a blank line, so the
sentence scanner's span lookup fails although the whole input balances. -/
theorem C1_balance_cex :
    checkUnterminatedMarkup "a \x7b\n\nb\x7d".data = true ∧
      Ventilate "a \x7b\n\nb\x7d".data { sentenceBreak := true } = none := by
  constructor
  · decide
  · decide

/-- C1 (amended): any input with an unmatched brace makes `Ventilate` return
the `UnterminatedMarkupSpan` error together with the empty result (modelled by
`none`); and whenever the whole input balances and additionally every
blank-line-delimited block's joined paragraph balances (in particular no span
crosses a blank line), the span lookup never fails and `Ventilate` succeeds. -/
theorem C1_balance_amended :
    (∀ (input : Str) (cfg : Config), checkUnterminatedMarkup input = false →
        Ventilate input cfg = none) ∧
    (∀ (input : Str) (cfg : Config), checkUnterminatedMarkup input = true →
        (∀ b ∈ gatherGo (splitNl (replaceCRLF input)) [],
          checkUnterminatedMarkup (colonJoin b) = true) →
        ∃ out, Ventilate input cfg = some out) := by
  constructor
  · intro input cfg hck
    exact Ventilate_err input cfg hck
  · intro input cfg hck hblocks
    by_cases hne : input = []
    · subst hne
      exact ⟨[], by rw [Ventilate, if_pos rfl]⟩
    · obtain ⟨outs, houts⟩ := processBlocks_total cfg _ hblocks
      exact ⟨_, Ventilate_eq input cfg outs hne hck houts⟩

/-- C1 (witness): the amended claim applied at concrete inputs: `"x{"` is
unbalanced and errors; `"a. B"` has balanced blocks and succeeds. -/
theorem C1_balance_witness :
    Ventilate "x\x7b".data { sentenceBreak := true } = none ∧
      ∃ out, Ventilate "a. B".data { sentenceBreak := true } = some out :=
  ⟨C1_balance_amended.1 _ _ (by decide), C1_balance_amended.2 _ _ (by decide) (by decide)⟩

/-- C2 (counterexample): with sentence breaking off and the line-length
wrapper on, `Ventilate` succeeds but inserts a newline strictly inside the
span `{a b}`: the input's balanced brace region does not appear contiguously
in the output. -/
theorem C2_span_cex :
    Ventilate "\x7ba b\x7d".data { maxLineLength := 2, respectMaxLineLength := true } =
      some "\x7ba\nb\x7d".data ∧
    ¬ ("\x7ba b\x7d".data <:+: "\x7ba\nb\x7d".data) := by
  constructor
  · decide
  · decide

/-- C2 (amended): in sentence ventilation — the mode the span guard protects —
no inserted newline ever falls strictly between a depth-zero `{` and its
matching `}`: the whole span reappears contiguously in the scanner output.
(The line-length wrapper ignores spans, see the counterexample.) -/
theorem C2_span_amended (p : Str) (cfg : Config) (a e : Nat) (out : Str)
    (hbal : scanLevel p 0 = some 0) (ha : a < p.length) (hopen : charAt p a = '\x7b')
    (haP : scanLevel (p.take a) 0 = some 0) (hfm : findMarkupEnd p a = some e)
    (hrun : ventilateBySentence p cfg = some out) :
    slice p a (e + 1) <:+: out :=
  sentence_span_inviolable p cfg a e out hbal ha hopen haP hfm hrun

/-- C2 (witness): the amended claim at the concrete paragraph `"a {b}. C"`,
whose span `{b}` occupies positions 2–4 and whose ventilation is
`"a {b}.\nC"`. -/
theorem C2_span_witness :
    slice "a \x7bb\x7d. C".data 2 (4 + 1) <:+: "a \x7bb\x7d.\nC".data :=
  C2_span_amended "a \x7bb\x7d. C".data { sentenceBreak := true } 2 4
    "a \x7bb\x7d.\nC".data (by decide) (by decide) (by decide) (by decide) (by decide)
    (by decide)

/-- C4: a maximal run of three consecutive dots in a prose paragraph is
consumed as a single unit: no newline is inserted inside or immediately after
it, so the run together with its following character reappears contiguously
in the scanner output.  (The premises state the run is literal and maximal
and that the follower is not itself the paragraph's newline-trimmed edge.) -/
theorem C4_ellipsis_guard (p : Str) (cfg : Config) (k : Nat) (out : Str)
    (hk : k + 2 < p.length)
    (hd0 : charAt p k = '.') (hd1 : charAt p (k + 1) = '.') (hd2 : charAt p (k + 2) = '.')
    (hmaxL : k = 0 ∨ charAt p (k - 1) ≠ '.')
    (hmaxR : k + 3 = p.length ∨ (charAt p (k + 3) ≠ '.' ∧ charAt p (k + 3) ≠ '\n'))
    (hrun : ventilateBySentence p cfg = some out) :
    slice p k (min (k + 4) p.length) <:+: out := by
  rw [ventilateBySentence] at hrun
  exact ellipsis_region p (effAbbrs cfg) k hk hd0 hd1 hd2 hmaxL hmaxR (p.length + 1)
    0 0 [] out (le_refl 0) (Or.inl ⟨Nat.zero_le k, Or.inl (Nat.zero_le k)⟩) hrun

/-- C4 (witness): the guard at the concrete paragraph
`"He went... then stopped. Done."` with the dot run at position 7: the slice
`"... "` survives contiguously in the ventilated output. -/
theorem C4_ellipsis_witness :
    slice "He went... then stopped. Done.".data 7
        (min (7 + 4) "He went... then stopped. Done.".data.length) <:+:
      "He went... then stopped.\nDone.".data :=
  C4_ellipsis_guard "He went... then stopped. Done.".data { sentenceBreak := true } 7
    "He went... then stopped.\nDone.".data (by decide) (by decide) (by decide) (by decide)
    (by decide) (by decide) (by decide)

/-- C5 (counterexample): a fenced code block containing a blank line is not
consumed atomically: the blank line ends the block, and the remainder of the
fence is sentence-ventilated.  The fence does not pass through byte-for-byte. -/
theorem C5_fence_cex :
    Ventilate "```\n\nCode. More.\n```".data { sentenceBreak := true } =
      some "```\n\nCode.\nMore.\n```".data ∧
    ("```\n\nCode.\nMore.\n```".data : Str) ≠ "```\n\nCode. More.\n```".data := by
  constructor
  · decide
  · decide

/-- C5 (amended): a fenced code block is classified atomically with every
subsequent line **up to the end of its blank-line-delimited block** (blank
lines terminate it), and all those lines pass through to the output
byte-for-byte with no sentence breaking applied: any gathered block whose
first trimmed line opens a fence is emitted verbatim among the processed
blocks. -/
theorem C5_fence_amended :
    (∀ (b : List Str) (cfg : Config),
        List.isPrefixOf ['`', '`', '`'] (trimSpace (b.headD [])) = true →
        ventilateBlock b cfg = some (joinSep ['\n'] b)) ∧
    (∀ (bs : List (List Str)) (cfg : Config) (outs : List Str),
        processBlocks bs cfg = some outs →
        ∀ b ∈ bs, List.isPrefixOf ['`', '`', '`'] (trimSpace (b.headD [])) = true →
          joinSep ['\n'] b ∈ outs) := by
  have h1 : ∀ (b : List Str) (cfg : Config),
      List.isPrefixOf ['`', '`', '`'] (trimSpace (b.headD [])) = true →
      ventilateBlock b cfg = some (joinSep ['\n'] b) := by
    intro b cfg hf
    simp only [ventilateBlock]
    rw [if_pos (Bool.or_eq_true _ _ |>.mpr (Or.inr hf))]
  refine ⟨h1, ?_⟩
  intro bs
  induction bs with
  | nil =>
    intro cfg outs h b hb
    simp at hb
  | cons b0 rest ih =>
    intro cfg outs h b hb hf
    rw [processBlocks] at h
    cases hvb : ventilateBlock b0 cfg with
    | none =>
      rw [hvb] at h
      simp at h
    | some s0 =>
      rw [hvb] at h
      cases hpb : processBlocks rest cfg with
      | none =>
        rw [hpb] at h
        simp at h
      | some outs' =>
        rw [hpb] at h
        have houts : outs = s0 :: outs' := (Option.some_injective _ h).symm
        rcases List.mem_cons.mp hb with rfl | hmem
        · rw [h1 b cfg hf] at hvb
          have hs0 := Option.some_injective _ hvb
          rw [houts, hs0]
          simp
        · rw [houts]
          exact List.mem_cons.mpr (Or.inr (ih cfg outs' hpb b hmem hf))

/-- C5 (witness): the amended claim at a concrete fence block and at a
two-block list containing it. -/
theorem C5_fence_witness :
    ventilateBlock ["```".data, "a. B".data, "```".data] { sentenceBreak := true } =
      some (joinSep ['\n'] ["```".data, "a. B".data, "```".data]) ∧
    joinSep ['\n'] ["```".data, "x. Y".data] ∈
      (match processBlocks [["```".data, "x. Y".data]] { sentenceBreak := true } with
        | some outs => outs
        | none => []) := by
  constructor
  · exact C5_fence_amended.1 _ _ (by decide)
  · exact C5_fence_amended.2 [["```".data, "x. Y".data]] { sentenceBreak := true } _
      (by decide) _ (by decide) (by decide)

/-- C6 (code bug): with `ParagraphSpacing = "single"`, `Ventilate` still joins
blocks with a blank line (a double newline), contradicting the repository's
own test `ParagraphSpacing: single`, which expects a single newline, and the
config documentation.  The first equation evaluates the code at the test's
input; the inequality separates it from the test's expected output. -/
theorem C6_spacing_bug :
    Ventilate "Paragraph one. It has two sentences.\n\nParagraph two. Also two sentences.".data
        { sentenceBreak := true, paragraphSpacing := "single".data } =
      some "Paragraph one.\nIt has two sentences.\n\nParagraph two.\nAlso two sentences.".data ∧
    ("Paragraph one.\nIt has two sentences.\n\nParagraph two.\nAlso two sentences.".data : Str) ≠
      "Paragraph one.\nIt has two sentences.\nParagraph two.\nAlso two sentences.".data := by
  constructor
  · decide
  · decide

/-- C7 (witness): the trailing-newline preservation applied at the concrete
input `"Hi.\n"`, whose ventilation is `"Hi.\n"`. -/
theorem C7_trailing_witness :
    ((("Hi.\n".data : Str).getLast? = some '\n') ↔
      (("Hi.\n".data : Str).getLast? = some '\n')) ∧
      (("Hi.\n".data : Str).getLast? = some '\n' →
        ("Hi.\n".data : Str).dropLast.getLast? ≠ some '\n') :=
  C7_trailing_newline "Hi.\n".data { sentenceBreak := true } "Hi.\n".data (by decide)

/-- C8: at sentence-ending punctuation the scanner looks up the token running
from the last whitespace up to and including the punctuation in the effective
abbreviation set, and an exact match suppresses the boundary (the scanner
steps on without emitting a break); with a configured set containing `"No."`,
ventilating `"Item No. 42 is important."` inserts no break after `No.` —
the output is the input unchanged. -/
theorem C8_abbreviation :
    (∀ (p : Str) (abbrs : List Str) (fuel lb i : Nat) (res : Str),
        i < p.length → ¬ List.isPrefixOf ellipsisDots (p.drop i) = true →
        ¬ charAt p i = '\x7b' →
        (charAt p i = '.' ∨ charAt p i = '!' ∨ charAt p i = '?') →
        wordAt p i ∈ abbrs →
        ventGo p abbrs (fuel + 1) lb i res = ventGo p abbrs fuel lb (i + 1) res) ∧
    Ventilate "Item No. 42 is important.".data
        { sentenceBreak := true, abbreviations := some ["No.".data] } =
      some "Item No. 42 is important.".data := by
  constructor
  · intro p abbrs fuel lb i res h1 h2 h3 h4 h5
    exact ventGo_abbrev p abbrs fuel lb i res h1 h2 h3 h4 h5
  · decide

/-- C8 (witness): the abbreviation step applied at the paragraph `"No. x"`,
position 2, with abbreviation set `{"No."}`: the scanner skips without a cut. -/
theorem C8_abbrev_witness :
    wordAt "No. x".data 2 ∈ ["No.".data] ∧
      ventGo "No. x".data ["No.".data] 6 0 2 [] = ventGo "No. x".data ["No.".data] 5 0 3 [] :=
  ⟨by decide, C8_abbreviation.1 "No. x".data ["No.".data] 5 0 2 [] (by decide) (by decide)
    (by decide) (by decide) (by decide)⟩

/-- C9: after sentence-ending punctuation that is not an abbreviation (and not
caught by the inverted-quote guard), the scanner absorbs the run of
closing-wrapper characters and confirms a boundary exactly when what follows
is whitespace or end of paragraph; otherwise no boundary is emitted and the
scan moves on.  Concretely, `"I like *strong tea.* It helps me write."`
breaks right after the `*`. -/
theorem C9_wrapper_boundary :
    (∀ (p : Str) (abbrs : List Str) (fuel lb i : Nat) (res : Str),
        i < p.length → ¬ List.isPrefixOf ellipsisDots (p.drop i) = true →
        ¬ charAt p i = '\x7b' →
        (charAt p i = '.' ∨ charAt p i = '!' ∨ charAt p i = '?') →
        ¬ wordAt p i ∈ abbrs → ¬ quoteGuard p i = true →
        (skipWrappers p (i + 1) ≥ p.length ∨
          isSpace (charAt p (skipWrappers p (i + 1))) = true) →
        ventGo p abbrs (fuel + 1) lb i res =
          ventGo p abbrs fuel (skipSpaces p (skipWrappers p (i + 1)))
            (skipSpaces p (skipWrappers p (i + 1)))
            (res ++ slice p lb (skipWrappers p (i + 1)) ++ ['\n'])) ∧
    (∀ (p : Str) (abbrs : List Str) (fuel lb i : Nat) (res : Str),
        i < p.length → ¬ List.isPrefixOf ellipsisDots (p.drop i) = true →
        ¬ charAt p i = '\x7b' →
        (charAt p i = '.' ∨ charAt p i = '!' ∨ charAt p i = '?') →
        ¬ wordAt p i ∈ abbrs → ¬ quoteGuard p i = true →
        ¬ (skipWrappers p (i + 1) ≥ p.length ∨
          isSpace (charAt p (skipWrappers p (i + 1))) = true) →
        ventGo p abbrs (fuel + 1) lb i res = ventGo p abbrs fuel lb (i + 1) res) ∧
    Ventilate "I like *strong tea.* It helps me write.".data { sentenceBreak := true } =
      some "I like *strong tea.*\nIt helps me write.".data := by
  refine ⟨?_, ?_, by decide⟩
  · intro p abbrs fuel lb i res h1 h2 h3 h4 h5 h6 h7
    exact ventGo_cut p abbrs fuel lb i res h1 h2 h3 h4 h5 h6 h7
  · intro p abbrs fuel lb i res h1 h2 h3 h4 h5 h6 h7
    exact ventGo_nocut p abbrs fuel lb i res h1 h2 h3 h4 h5 h6 h7

/-- C9 (witness): the boundary confirmation applied at `"tea.* It"`:
the wrapper run after the period absorbs the `*`, the next character is a
space, and the scanner flushes `"tea.*"` with a break; and the no-boundary
step applied at `"a.b"` where the period is followed by a letter. -/
theorem C9_wrapper_witness :
    ventGo "tea.* It".data [] 9 0 3 [] =
      ventGo "tea.* It".data [] 8 6 6 ("tea.*".data ++ ['\n']) ∧
    ventGo "a.b".data [] 4 0 1 [] = ventGo "a.b".data [] 3 0 2 [] := by
  constructor
  · have h := C9_wrapper_boundary.1 "tea.* It".data [] 8 0 3 [] (by decide) (by decide)
      (by decide) (by decide) (by decide) (by decide) (by decide)
    exact h.trans (by decide)
  · exact C9_wrapper_boundary.2.1 "a.b".data [] 3 0 1 [] (by decide) (by decide)
      (by decide) (by decide) (by decide) (by decide) (by decide)

/-- C3 (counterexample): `Ventilate` is not idempotent.  On
`"{x}Mr. Smith came."` the span-boundary break separates `{x}` from `Mr.`
without any whitespace in the input; re-joining the output lines inserts a
space, which changes the abbreviation token from `"{x}Mr."` (no match) to
`"Mr."` (a default abbreviation), so the second run removes a break. -/
theorem C3_idempotence_cex :
    Ventilate "\x7bx\x7dMr. Smith came.".data { sentenceBreak := true } =
      some "\x7bx\x7d\nMr.\nSmith came.".data ∧
    Ventilate "\x7bx\x7d\nMr.\nSmith came.".data { sentenceBreak := true } =
      some "\x7bx\x7d\nMr. Smith came.".data ∧
    ("\x7bx\x7d\nMr. Smith came.".data : Str) ≠ "\x7bx\x7d\nMr.\nSmith came.".data := by
  refine ⟨by decide, by decide, by decide⟩

/-- C10 (counterexample): sentence ventilation does not always preserve the
word sequence: on the paragraph `"{x}Board"` the span-boundary break splits
the single word `{x}Board` into the two words `{x}` and `Board`. -/
theorem C10_words_cex :
    ventilateBySentence "\x7bx\x7dBoard".data { sentenceBreak := true } =
      some "\x7bx\x7d\nBoard".data ∧
    fields "\x7bx\x7d\nBoard".data ≠ fields "\x7bx\x7dBoard".data := by
  constructor
  · decide
  · decide

/-- C10 (amended): the line-length wrapper always preserves the word
sequence; sentence ventilation preserves it for every paragraph containing no
`{` (span-boundary breaks may split a word glued to a span, see the
counterexample). -/
theorem C10_words_amended :
    (∀ (p : Str) (m : Int), fields (ventilateByLineLength p m) = fields p) ∧
    (∀ (p : Str) (cfg : Config) (out : Str), '\x7b' ∉ p →
        ventilateBySentence p cfg = some out → fields out = fields p) := by
  constructor
  · intro p m
    exact ventilateByLineLength_fields p m
  · intro p cfg out hnb hrun
    exact ventilateBySentence_fields p cfg out hnb hrun

/-- C10 (witness): word preservation at the concrete paragraphs `"aa bb cc"`
(wrapped at width 3) and `"a. B"` (sentence-ventilated to `"a.\nB"`). -/
theorem C10_words_witness :
    fields (ventilateByLineLength "aa bb cc".data 3) = fields "aa bb cc".data ∧
      fields "a.\nB".data = fields "a. B".data :=
  ⟨C10_words_amended.1 "aa bb cc".data 3,
    C10_words_amended.2 "a. B".data { sentenceBreak := true } "a.\nB".data (by decide)
      (by decide)⟩

/-- C3 (amended): with sentence breaking off — the line-length wrap and
pass-through modes — `Ventilate` is idempotent on carriage-return-free
inputs: running it again on its own output with the same configuration
returns the output unchanged.  (With sentence breaking on, idempotence
fails, see the counterexample.) -/
theorem C3_idempotence_amended (input : Str) (cfg : Config) (out : Str)
    (hsb : cfg.sentenceBreak = false) (hcr : '\r' ∉ input)
    (hrun : Ventilate input cfg = some out) :
    Ventilate out cfg = some out := by
  by_cases hie : input = []
  · rw [hie, show Ventilate [] cfg = some [] from by rw [Ventilate, if_pos rfl]] at hrun
    rw [← Option.some_injective _ hrun]
    rw [Ventilate, if_pos rfl]
  · cases hck : checkUnterminatedMarkup input with
    | false =>
      rw [Ventilate_err input cfg hck] at hrun
      simp at hrun
    | true =>
      have hrep : replaceCRLF input = input := replaceCRLF_id input hcr
      cases hpb : processBlocks (gatherGo (splitNl (replaceCRLF input)) []) cfg with
      | none =>
        rw [Ventilate_blockErr input cfg hie hck hpb] at hrun
        simp at hrun
      | some processed =>
        rw [Ventilate_eq input cfg processed hie hck hpb] at hrun
        have hout := Option.some_injective _ hrun
        have hblocks : ∀ b ∈ gatherGo (splitNl (replaceCRLF input)) [],
            b ≠ [] ∧ ∀ l ∈ b, trimSpace l ≠ [] ∧ '\n' ∉ l := by
          intro b hb
          exact gatherGo_ok (fun l => '\n' ∉ l) (splitNl (replaceCRLF input)) []
            (fun l hl => splitNl_no_nl (replaceCRLF input) l hl) (by simp) b hb
        cases hpe : processed with
        | nil =>
          rw [hpe] at hout
          cases htr : (List.isSuffixOf ['\n'] input || List.isSuffixOf ['\r', '\n'] input) with
          | true =>
            rw [htr, Bool.true_and] at hout
            rw [show (!(List.isSuffixOf ['\n'] (joinSep ['\n', '\n'] ([] : List Str)))) = true
              from rfl] at hout
            rw [if_pos rfl] at hout
            rw [← hout]
            rw [show joinSep ['\n', '\n'] ([] : List Str) ++ ['\n'] = ['\n'] from rfl]
            rw [Ventilate_eq ['\n'] cfg [] (by simp) (by decide) rfl]
            rfl
          | false =>
            rw [htr, Bool.false_and] at hout
            rw [if_neg (by decide)] at hout
            rw [← hout]
            rw [show joinSep ['\n', '\n'] ([] : List Str) = [] from rfl]
            rw [Ventilate, if_pos rfl]
        | cons s0 rest0 =>
          have hpne : processed ≠ [] := by rw [hpe]; simp
          obtain ⟨hall, _⟩ := processBlocks_ok cfg _ processed hpb hblocks
          obtain ⟨hstab, hLok⟩ := processBlocks_stable cfg hsb _ processed hpb hblocks
          have hpne' : ∀ s ∈ processed, s ≠ [] := fun s hs => (hall s hs).1
          obtain ⟨hbody_ne, hbody_last⟩ := joinSep_getLast ['\n', '\n'] processed hpne hpne'
          obtain ⟨lz, hlz⟩ := getLast?_of_ne_nil processed hpne
          have hlzm := List.mem_of_mem_getLast? hlz
          have hbody_nl : (joinSep ['\n', '\n'] processed).getLast? ≠ some '\n' := by
            rw [hbody_last lz hlz]
            exact (hall lz hlzm).2
          have hsfx_body : List.isSuffixOf ['\n'] (joinSep ['\n', '\n'] processed) = false := by
            cases hb : List.isSuffixOf ['\n'] (joinSep ['\n', '\n'] processed) with
            | false => rfl
            | true => exact absurd ((suffix_single_iff '\n' _).mp hb) hbody_nl
          have hsfx2 : List.isSuffixOf ['\r', '\n'] (joinSep ['\n', '\n'] processed) = false := by
            cases hb2 : List.isSuffixOf ['\r', '\n'] (joinSep ['\n', '\n'] processed) with
            | false => rfl
            | true =>
              have himp := crlf_suffix_imp _ hb2
              rw [hsfx_body] at himp
              exact absurd himp (by simp)
          have hnocr_body : '\r' ∉ joinSep ['\n', '\n'] processed := by
            intro hm
            rcases mem_joinSep ['\n', '\n'] processed '\r' hm with ⟨s, hs, hcs⟩ | hsep
            · obtain ⟨b, hbmem, hbrun⟩ := processBlocks_mem cfg _ processed hpb s hs
              rcases ventilateBlock_chars b cfg s hsb hbrun '\r' hcs with ⟨l, hl, hcl⟩ | hch
              · rcases gatherGo_mem_src _ [] b l hbmem hl with hsrc | hsrc
                · have hmm := mem_splitNl _ l hsrc '\r' hcl
                  rw [hrep] at hmm
                  exact hcr hmm
                · simp at hsrc
              · rcases hch with h | h <;> simp at h
            · simp at hsep
          have hcheck_body : checkUnterminatedMarkup (joinSep ['\n', '\n'] processed) = true := by
            rw [check_braces]
            have hbb : braces (joinSep ['\n', '\n'] processed) = braces input := by
              rw [braces_joinSep ['\n', '\n'] rfl processed,
                braces_processBlocks cfg hsb _ processed hpb,
                braces_gatherGo (splitNl (replaceCRLF input)) []]
              rw [show (([] : List Str).map braces).flatten = [] from rfl, List.nil_append,
                braces_splitNl, hrep]
            rw [hbb, ← check_braces]
            exact hck
          have hgather_body : gatherGo (splitNl (joinSep ['\n', '\n'] processed)) [] =
              processed.map splitNl := by
            rw [linesJoin_splitNl processed hpne]
            exact gatherGo_linesJoin (processed.map splitNl) hLok
          cases htr : (List.isSuffixOf ['\n'] input || List.isSuffixOf ['\r', '\n'] input) with
          | false =>
            rw [htr, Bool.false_and] at hout
            rw [if_neg (by decide)] at hout
            rw [← hout]
            rw [Ventilate_eq _ cfg processed hbody_ne hcheck_body (by
              rw [replaceCRLF_id _ hnocr_body, hgather_body]
              exact hstab)]
            rw [hsfx_body, hsfx2]
            rfl
          | true =>
            rw [htr, Bool.true_and, hsfx_body] at hout
            rw [show (!false) = true from rfl] at hout
            rw [if_pos rfl] at hout
            rw [← hout]
            have houtne : joinSep ['\n', '\n'] processed ++ ['\n'] ≠ [] := by simp
            have hcheck2 : checkUnterminatedMarkup (joinSep ['\n', '\n'] processed ++ ['\n']) =
                true := by
              rw [check_braces, braces_append,
                show braces ['\n'] = [] from rfl, List.append_nil, ← check_braces]
              exact hcheck_body
            have hnocr2 : '\r' ∉ joinSep ['\n', '\n'] processed ++ ['\n'] := by
              intro hm
              rcases List.mem_append.mp hm with h | h
              · exact hnocr_body h
              · simp at h
            rw [Ventilate_eq _ cfg processed houtne hcheck2 (by
              rw [replaceCRLF_id _ hnocr2,
                show (joinSep ['\n', '\n'] processed ++ ['\n']) =
                  joinSep ['\n', '\n'] processed ++ '\n' :: [] from rfl,
                splitNl_append_nl,
                show splitNl ([] : Str) = [[]] from rfl,
                gatherGo_trailing_blank (splitNl (joinSep ['\n', '\n'] processed)) [] [] rfl,
                hgather_body]
              exact hstab)]
            have hs1 : List.isSuffixOf ['\n'] (joinSep ['\n', '\n'] processed ++ ['\n']) =
                true := by
              rw [suffix_single_iff]
              simp
            rw [hs1, Bool.true_or, hsfx_body]
            rfl

/-- C3 (witness): idempotence applied at a two-line colon paragraph wrapped
at width 5: re-ventilating `"alpha\nbeta:\ngamma\ndelta"` returns it
unchanged. -/
theorem C3_idempotence_witness :
    Ventilate "alpha\nbeta:\ngamma\ndelta".data
        { maxLineLength := 5, respectMaxLineLength := true } =
      some "alpha\nbeta:\ngamma\ndelta".data :=
  C3_idempotence_amended "alpha beta:\ngamma delta".data
    { maxLineLength := 5, respectMaxLineLength := true }
    "alpha\nbeta:\ngamma\ndelta".data (by decide) (by decide) (by decide)

end Advent
